import Mathlib

/-
Verification of the railroads hillclimbing splitter (src/splitter.py and
src/stock.py): the greedy splitter (fastsplit), the exact branch-and-bound
splitter (smartsplit), the orchestration policy (compute_split), the force
model (starting_force and friends on trains of rolling stock), and split
materialization (split_to_slices / split_to_subcuts / split_to_trips).

Python floats are embedded as elements of a linear ordered commutative ring
(the splitters are generic; the force model is over ℝ since it uses sqrt).
Exceptions (assertion failures, ZeroDivisionError, ValueError, max of an
empty sequence) are modelled by explicit error values: the splitters return
a SplitResult with an assertError constructor, the degenerate force-model
computations and compute_split on an empty cut return none.

The while loops of both splitters are realized with an explicit fuel
argument so all definitions are structurally recursive (hence executable
and kernel-reducible); the public wrappers supply fuel that provably
suffices (each loop iteration consumes at least one unit of the cut).
-/

namespace RailSplit

variable {α : Type*} [LinearOrderedCommRing α]

/-- Result of a splitter call: `assertError` models the failed
`assert capacity > 0`, `infeasible` models the Python `None` return, and
`split` carries the tuple of subcut lengths. -/
inductive SplitResult where
  | assertError : SplitResult
  | infeasible : SplitResult
  | split : List ℕ → SplitResult
deriving DecidableEq

/-- The inner `for this_len in range(len(cut), 0, -1)` search of fastsplit:
try prefix lengths from `n` down to `1`, returning the first (i.e. largest)
`l` with `capacity + sum(cut[:l]) > 0`, and `none` when the loop falls
through to its `else` clause. -/
def fastFind (capacity : α) (cut : List α) : ℕ → Option ℕ
  | 0 => none
  | l + 1 =>
    if 0 < capacity + ((cut.take (l + 1)).sum) then some (l + 1)
    else fastFind capacity cut l

/-- `sum(x for x in l if x > 0)`: the capacity collected from a subcut. -/
def posForceSum (l : List α) : α := (l.filter (fun x => decide (0 < x))).sum

/-- The `while len(cut) > 0` loop of fastsplit. Fuel bounds the number of
iterations; each iteration consumes at least one unit of the cut, so fuel
`cut.length` suffices (the fuel-exhausted value is never reached then). -/
def fastGo : ℕ → α → List α → Bool → Option (List ℕ)
  | _, _, [], _ => some []
  | 0, _, _ :: _, _ => none
  | fuel + 1, capacity, c :: cs, collect_net =>
    match fastFind capacity (c :: cs) (c :: cs).length with
    | none => none
    | some l =>
      match fastGo fuel
          (if collect_net then capacity + posForceSum ((c :: cs).take l) else capacity)
          ((c :: cs).drop l) collect_net with
      | none => none
      | some rest => some (l :: rest)

/-- `fastsplit(capacity, cut, collect_net)` from src/splitter.py. -/
def fastsplit (capacity : α) (cut : List α) (collect_net : Bool) : SplitResult :=
  if capacity ≤ 0 then .assertError
  else
    match fastGo cut.length capacity cut collect_net with
    | none => .infeasible
    | some s => .split s

/-- The `for removed in reversed(this_cut): this_len -= 1; if removed > 0:
break` tail-shrinking loop of smartsplit: the total decrement applied to
`this_len`, as a function of the reversed candidate subcut. -/
def shrinkCount : List α → ℕ
  | [] => 0
  | x :: xs => if 0 < x then 1 else shrinkCount xs + 1

/-- The `while this_len > 0` loop of smartsplit. `rec` is the recursive
`smartsplit(capacity, cut[this_len:], best_split_len - 2)` call (supplied by
`smartGo` at one unit less fuel); `best_split`/`best_split_len` are the
enclosing-scope mutable variables. Loop fuel decreases by one per iteration
while `this_len` decreases by at least one, so fuel `this_len` suffices. -/
def smartLoopGo (rec : List α → ℤ → Option (List ℕ)) (capacity : α) (cut : List α) :
    ℕ → ℕ → Option (List ℕ) → ℤ → Option (List ℕ)
  | 0, _, best_split, _ => best_split
  | _ + 1, 0, best_split, _ => best_split
  | lfuel + 1, tl + 1, best_split, best_split_len =>
    if 0 < capacity + (cut.take (tl + 1)).sum then
      match rec (cut.drop (tl + 1)) (best_split_len - 2) with
      | some s =>
        if (((tl + 1) :: s).length : ℤ) < best_split_len then
          if ((tl + 1) :: s).length = 1 then some ((tl + 1) :: s)
          else
            smartLoopGo rec capacity cut lfuel
              (tl + 1 - shrinkCount (cut.take (tl + 1)).reverse)
              (some ((tl + 1) :: s)) ((((tl + 1) :: s)).length : ℤ)
        else
          smartLoopGo rec capacity cut lfuel
            (tl + 1 - shrinkCount (cut.take (tl + 1)).reverse)
            best_split best_split_len
      | none => smartLoopGo rec capacity cut lfuel tl best_split best_split_len
    else smartLoopGo rec capacity cut lfuel tl best_split best_split_len

/-- The body of `smartsplit(capacity, cut, max_parts)` (after the assert),
with fuel bounding the recursion depth: each recursive call is on
`cut[this_len:]` with `this_len ≥ 1`, so fuel `cut.length + 1` suffices. -/
def smartGo : ℕ → α → List α → ℤ → Option (List ℕ)
  | 0, _, _, _ => none
  | fuel + 1, capacity, cut, max_parts =>
    if cut.length = 0 then some []
    else if max_parts ≤ 0 then none
    else if max_parts = 1 then
      if 0 < capacity + cut.sum then some [cut.length] else none
    else
      smartLoopGo (fun c m => smartGo fuel capacity c m) capacity cut
        cut.length cut.length none (max_parts + 1)

/-- `smartsplit(capacity, cut, max_parts)` from src/splitter.py. -/
def smartsplit (capacity : α) (cut : List α) (max_parts : ℤ) : SplitResult :=
  if capacity ≤ 0 then .assertError
  else
    match smartGo (cut.length + 1) capacity cut max_parts with
    | none => .infeasible
    | some s => .split s

/-! ## The rolling-stock data model and force model (src/stock.py)

For the splitting engine only the aggregate numeric values matter: every
rolling-stock entity (Car with tractive effort 0, TractiveCar, or CarGroup
aggregating its members) exposes a mass and a tractive effort.  A Train is
an ordered sequence of such entities.  `Calculative` is imported by
src/splitter.py but absent from src/stock.py; per the spec (§4.2 and §6) a
calculative entity is anything exposing mass, tractive effort and a derived
starting force on a grade, which is what `Stock` captures. -/

/-- An entity as the splitting engine sees it: a mass and a tractive effort
(both in pounds, embedded as reals). A plain Car has `tractive_effort = 0`;
a CarGroup carries the aggregated mass/tractive effort of its members. -/
structure Stock where
  mass : ℝ
  tractive_effort : ℝ

/-- A Train: an ordered sequence of rolling stock. -/
abbrev Train := List Stock

/-- Total mass of a train (`Train.mass`). -/
def trainMass (t : Train) : ℝ := (t.map Stock.mass).sum

/-- Total tractive effort of a train (`Train.tractive_effort`). -/
def trainTE (t : Train) : ℝ := (t.map Stock.tractive_effort).sum

/-- `M⋅(α + μ) / sqrt(α² + 1)` with `μ = 0.004`: the force needed to start a
mass `M` on grade `grade` (`Train.starting_force` of src/stock.py, as a
function of the total mass). -/
noncomputable def startingForceOfMass (M : ℝ) (grade : ℝ) : ℝ :=
  M * (grade + 0.004) / Real.sqrt (grade * grade + 1)

/-- `Train.starting_force(grade)` from src/stock.py. -/
noncomputable def Train.starting_force (t : Train) (grade : ℝ) : ℝ :=
  startingForceOfMass (trainMass t) grade

/-- Modelled from the spec: the starting force of a single calculative
entity (the `Calculative.starting_force` consumed by `net_force_capacity`
is absent from src/stock.py); per spec §4.1 it is the same closed form
applied to the entity's own mass. -/
noncomputable def Stock.starting_force (x : Stock) (grade : ℝ) : ℝ :=
  startingForceOfMass x.mass grade

/-- `Train.starting_power(grade)`: `starting_force(grade) / tractive_effort`.
Python raises ZeroDivisionError when the total tractive effort is zero;
that failure is modelled as `none`. -/
noncomputable def Train.starting_power (t : Train) (grade : ℝ) : Option ℝ :=
  if trainTE t = 0 then none else some (Train.starting_force t grade / trainTE t)

/-- `Train.spare_capacity(grade)` from src/stock.py.  (The denominator
`grade + 0.004` is zero only at grade `-0.004`, where Python raises; that
failure is modelled as `none`.) -/
noncomputable def Train.spare_capacity (t : Train) (grade : ℝ) : Option ℝ :=
  if grade + 0.004 = 0 then none
  else some (trainTE t * Real.sqrt (grade * grade + 1) / (grade + 0.004) - trainMass t)

/-- `Train.maximum_grade()` from src/stock.py:
`(M²·0.004 − F·sqrt(M²·(0.004² + 1) − F²)) / (F² − M²)`.
Python evaluates `math.sqrt` first (ValueError when the discriminant is
negative) and then divides (ZeroDivisionError when `F² − M² = 0`); both
failures are modelled as `none`. -/
noncomputable def Train.maximum_grade (t : Train) : Option ℝ :=
  let F := trainTE t
  let M := trainMass t
  if M ^ 2 * (0.004 ^ 2 + 1) - F ^ 2 < 0 then none
  else if F ^ 2 - M ^ 2 = 0 then none
  else some ((M ^ 2 * 0.004 - F * Real.sqrt (M ^ 2 * (0.004 ^ 2 + 1) - F ^ 2))
      / (F ^ 2 - M ^ 2))

/-- `net_force_capacity(x, grade, max_power)` from src/splitter.py. -/
noncomputable def net_force_capacity (x : Stock) (grade : ℝ) (max_power : ℝ) : ℝ :=
  x.tractive_effort * max_power - x.starting_force grade

/-- Python's `max(iterable)`: `none` on an empty sequence (where Python
raises ValueError). -/
def pyMax : List α → Option α
  | [] => none
  | x :: xs =>
    match pyMax xs with
    | none => some x
    | some m => some (max x m)

/-- The dispatch policy at the end of `compute_split`, factored over the
already-computed head capacity `p` and member forces `c`:
`fastsplit(p, c, collect_net=True)` when `max(c) <= 0` or collect_net was
requested, else `smartsplit(p, c, max_parts=len(cut))`.  Python evaluates
`max(c)` first, so an empty cut raises (modelled as `none`) even when
`collect_net` is set. -/
def dispatchSplit (p : α) (c : List α) (collect_net : Bool) : Option SplitResult :=
  match pyMax c with
  | none => none
  | some m =>
    some (if m ≤ 0 ∨ collect_net = true then fastsplit p c true
          else smartsplit p c (c.length : ℤ))

/-- `compute_split(power, cut, grade, max_power, collect_net)` from
src/splitter.py. -/
noncomputable def compute_split (power : Stock) (cut : Train) (grade : ℝ)
    (max_power : ℝ) (collect_net : Bool) : Option SplitResult :=
  dispatchSplit (net_force_capacity power grade max_power)
    (cut.map fun x => net_force_capacity x grade max_power) collect_net

/-! ## Split materialization (src/splitter.py, split_to_slices and friends) -/

/-- `itertools.accumulate`: the list of running (inclusive) partial sums,
starting from `acc`. -/
def accumFrom (acc : ℕ) : List ℕ → List ℕ
  | [] => []
  | x :: xs => (acc + x) :: accumFrom (acc + x) xs

/-- `split_to_slices(split)`: each split entry `l` with inclusive running
sum `e` becomes the slice `(e - l, e)`. -/
def split_to_slices (split : List ℕ) : List (ℕ × ℕ) :=
  (accumFrom 0 split).zipWith (fun e l => (e - l, e)) split

/-- `split_to_subcuts(cut, split)`: map each slice `(s, e)` to `cut[s:e]`. -/
def split_to_subcuts (cut : Train) (split : List ℕ) : List Train :=
  (split_to_slices split).map fun se => (cut.drop se.1).take (se.2 - se.1)

/-- Modelled from the spec: `Train.tractive_units()` is called by
`split_to_trips` but absent from src/stock.py.  Per spec §4.6/§9 the power
of each subsequent trip is the original power plus the accumulated prior
subcuts — their full aggregate tractive effort and mass — so the train of
collected units is the subcut itself. -/
def tractive_units (t : Train) : Train := t

/-- `split_to_trips(power, cut, split, collect_tractive)`: pair each subcut
with its power (Train addition is concatenation).  With collection the
powers are `itertools.accumulate(tractive-unit trains, initial=power)`,
realized as `List.scanl`; `map(operator.add, pw, sc)` zips to the shorter
list, i.e. one trip per subcut. -/
def split_to_trips (power : Train) (cut : Train) (split : List ℕ)
    (collect_tractive : Bool) : List Train :=
  List.zipWith (· ++ ·)
    (if collect_tractive
      then ((split_to_subcuts cut split).map tractive_units).scanl (· ++ ·) power
      else List.replicate (split_to_subcuts cut split).length power)
    (split_to_subcuts cut split)

/-! ## Feasibility of a split

`feasibleCB collect capacity cut s` says: the parts of `s` are positive,
they cover `cut` exactly, and each part's running capacity plus the sum of
its member forces is strictly positive, where the running capacity picks up
the strictly-positive forces of previous parts exactly when `collect` is
set (the collection rule of fastsplit; smartsplit corresponds to
`collect = false`). -/
def feasibleCB (collect : Bool) (capacity : α) : List α → List ℕ → Bool
  | cut, [] => cut.isEmpty
  | cut, l :: s =>
    decide (1 ≤ l) && decide (l ≤ cut.length) &&
      decide (0 < capacity + (cut.take l).sum) &&
      feasibleCB collect
        (if collect then capacity + posForceSum (cut.take l) else capacity)
        (cut.drop l) s

/-- Feasibility without capacity replenishment (the smartsplit model). -/
def feasibleB (capacity : α) (cut : List α) (s : List ℕ) : Bool :=
  feasibleCB false capacity cut s

/-! ## Basic properties of split feasibility -/

theorem feasibleCB_nil (collect : Bool) (cap : α) (s : List ℕ) :
    feasibleCB collect cap [] s = true ↔ s = [] := by
  cases s with
  | nil => simp [feasibleCB]
  | cons l s =>
    simp only [feasibleCB, List.length_nil, List.take_nil, List.drop_nil]
    simp only [Bool.and_eq_true, decide_eq_true_eq]
    constructor
    · rintro ⟨⟨⟨h1, h2⟩, _⟩, _⟩; omega
    · intro h; cases h

theorem feasibleCB_cons (collect : Bool) (cap : α) (cut : List α) (l : ℕ) (s : List ℕ) :
    feasibleCB collect cap cut (l :: s) = true ↔
      1 ≤ l ∧ l ≤ cut.length ∧ 0 < cap + (cut.take l).sum ∧
        feasibleCB collect (if collect then cap + posForceSum (cut.take l) else cap)
          (cut.drop l) s = true := by
  simp [feasibleCB, and_assoc]

theorem feasibleB_nil (cap : α) (s : List ℕ) : feasibleB cap [] s = true ↔ s = [] :=
  feasibleCB_nil false cap s

theorem feasibleB_of_nil (cap : α) (cut : List α) (h : feasibleB cap cut [] = true) :
    cut = [] := by
  simpa [feasibleB, feasibleCB, List.isEmpty_iff] using h

theorem feasibleB_cons (cap : α) (cut : List α) (l : ℕ) (s : List ℕ) :
    feasibleB cap cut (l :: s) = true ↔
      1 ≤ l ∧ l ≤ cut.length ∧ 0 < cap + (cut.take l).sum ∧
        feasibleB cap (cut.drop l) s = true := by
  simpa [feasibleB] using feasibleCB_cons false cap cut l s

theorem feasibleCB_sum (collect : Bool) :
    ∀ (s : List ℕ) (cap : α) (cut : List α), feasibleCB collect cap cut s = true →
      s.sum = cut.length := by
  intro s
  induction s with
  | nil =>
    intro cap cut h
    have : cut = [] := by simpa [feasibleCB, List.isEmpty_iff] using h
    simp [this]
  | cons l s ih =>
    intro cap cut h
    rw [feasibleCB_cons] at h
    obtain ⟨h1, h2, _, h4⟩ := h
    have := ih _ _ h4
    simp only [List.sum_cons, this, List.length_drop]
    omega

theorem feasibleCB_all_pos (collect : Bool) :
    ∀ (s : List ℕ) (cap : α) (cut : List α), feasibleCB collect cap cut s = true →
      ∀ l ∈ s, 0 < l := by
  intro s
  induction s with
  | nil => intro _ _ _ l hl; cases hl
  | cons l s ih =>
    intro cap cut h
    rw [feasibleCB_cons] at h
    obtain ⟨h1, _, _, h4⟩ := h
    intro p hp
    rcases List.mem_cons.mp hp with rfl | hp
    · omega
    · exact ih _ _ h4 p hp

theorem length_le_sum_of_pos :
    ∀ s : List ℕ, (∀ l ∈ s, 0 < l) → s.length ≤ s.sum := by
  intro s
  induction s with
  | nil => simp
  | cons l s ih =>
    intro h
    have h1 : 0 < l := h l (by simp)
    have h2 := ih fun p hp => h p (List.mem_cons_of_mem _ hp)
    simp only [List.length_cons, List.sum_cons]
    omega

theorem feasibleB_head (cap : α) (cut : List α) (t : List ℕ)
    (h : feasibleB cap cut t = true) (hne : cut ≠ []) :
    1 ≤ t.headD 0 ∧ t.headD 0 ≤ cut.length := by
  cases t with
  | nil => exact absurd (feasibleB_of_nil cap cut h) hne
  | cons l s =>
    rw [feasibleB_cons] at h
    exact ⟨h.1, h.2.1⟩

theorem sum_nonpos_of_forall (l : List α) (h : ∀ x ∈ l, x ≤ 0) : l.sum ≤ 0 := by
  induction l with
  | nil => simp
  | cons x xs ih =>
    have h1 := h x (by simp)
    have h2 := ih fun y hy => h y (List.mem_cons_of_mem _ hy)
    simp only [List.sum_cons]
    linarith

/-! ## The exchange lemmas

Moving a block of non-positive-force units from the front of the remainder
into the first subcut preserves feasibility without increasing the number
of parts.  This is the combinatorial content behind the soundness of
smartsplit's tail-shrinking skip. -/

theorem feasibleB_drop_exchange :
    ∀ (s : List ℕ) (cap : α) (cut : List α) (d : ℕ),
      feasibleB cap cut s = true → d ≤ cut.length →
      (∀ x ∈ cut.take d, x ≤ 0) →
      ∃ s2, feasibleB cap (cut.drop d) s2 = true ∧ s2.length ≤ s.length := by
  intro s
  induction s with
  | nil =>
    intro cap cut d h hd _
    have hcut : cut = [] := feasibleB_of_nil cap cut h
    subst hcut
    exact ⟨[], by simp [feasibleB, feasibleCB], le_rfl⟩
  | cons p rest ih =>
    intro cap cut d h hd hx
    rw [feasibleB_cons] at h
    obtain ⟨hp1, hp2, hp3, hp4⟩ := h
    rcases Nat.lt_or_ge d p with hlt | hge
    · -- d < p: shorten the first part to p - d
      refine ⟨(p - d) :: rest, ?_, by simp⟩
      have hsplit : cut.take p = cut.take d ++ (cut.drop d).take (p - d) := by
        have := List.take_add cut d (p - d)
        rwa [show d + (p - d) = p from by omega] at this
      rw [feasibleB_cons]
      refine ⟨by omega, by simp [List.length_drop]; omega, ?_, ?_⟩
      · have hdsum : (cut.take d).sum ≤ 0 := sum_nonpos_of_forall _ hx
        have heq : (cut.take p).sum
            = (cut.take d).sum + ((cut.drop d).take (p - d)).sum := by
          rw [hsplit, List.sum_append]
        linarith
      · rw [List.drop_drop, show d + (p - d) = p from by omega]
        exact hp4
    · rcases Nat.eq_or_lt_of_le hge with heq | hlt
      · -- d = p: drop the first part altogether
        subst heq
        exact ⟨rest, hp4, by simp⟩
      · -- p < d: recurse into the remainder
        have hsplit : cut.take d = cut.take p ++ (cut.drop p).take (d - p) := by
          have := List.take_add cut p (d - p)
          rwa [show p + (d - p) = d from by omega] at this
        have hsub : ∀ x ∈ (cut.drop p).take (d - p), x ≤ 0 := by
          intro x hxmem
          exact hx x (by rw [hsplit]; exact List.mem_append_right _ hxmem)
        obtain ⟨s2, hs2, hlen⟩ :=
          ih cap (cut.drop p) (d - p) hp4 (by simp [List.length_drop]; omega) hsub
        rw [List.drop_drop, show p + (d - p) = d from by omega] at hs2
        exact ⟨s2, hs2, by simpa using Nat.le_succ_of_le hlen⟩

theorem feasibleB_first_exchange (cap : α) (cut : List α) (t : List ℕ) (m l : ℕ)
    (ht : feasibleB cap cut t = true) (hhead : t.headD 0 = m)
    (hml : m < l) (hl : l ≤ cut.length)
    (hnp : ∀ x ∈ (cut.drop m).take (l - m), x ≤ 0)
    (hfeas : 0 < cap + (cut.take l).sum) :
    ∃ s2, feasibleB cap cut (l :: s2) = true ∧ (l :: s2).length ≤ t.length := by
  cases t with
  | nil =>
    have hcut : cut = [] := feasibleB_of_nil cap cut ht
    subst hcut
    simp at hl
    omega
  | cons m' rest =>
    have hm : m' = m := by simpa using hhead
    subst hm
    rw [feasibleB_cons] at ht
    obtain ⟨_, hm2, _, hrest⟩ := ht
    obtain ⟨s2, hs2, hlen⟩ :=
      feasibleB_drop_exchange rest cap (cut.drop m') (l - m') hrest
        (by simp [List.length_drop]; omega) hnp
    rw [List.drop_drop, show m' + (l - m') = l from by omega] at hs2
    refine ⟨s2, ?_, by simpa using Nat.succ_le_succ hlen⟩
    rw [feasibleB_cons]
    exact ⟨by omega, hl, hfeas, hs2⟩

/-! ## Properties of the tail-shrinking decrement -/

theorem one_le_shrinkCount (r : List α) (h : r ≠ []) : 1 ≤ shrinkCount r := by
  cases r with
  | nil => exact absurd rfl h
  | cons y ys =>
    simp only [shrinkCount]
    split <;> omega

theorem shrink_take_nonpos :
    ∀ (r : List α) (x : α), x ∈ r.take (shrinkCount r - 1) → x ≤ 0 := by
  intro r
  induction r with
  | nil => intro x hx; simp at hx
  | cons y ys ih =>
    intro x hx
    by_cases hy : 0 < y
    · simp [shrinkCount, hy] at hx
    · simp only [shrinkCount, if_neg hy, Nat.add_sub_cancel] at hx
      cases hsc : shrinkCount ys with
      | zero => rw [hsc] at hx; simp at hx
      | succ k =>
        rw [hsc, List.take_succ_cons] at hx
        rcases List.mem_cons.mp hx with rfl | hx2
        · exact not_lt.mp hy
        · exact ih x (by rw [hsc]; simpa using hx2)

/-- Every unit in the region skipped by the tail-shrinking step (strictly
between the decremented length and the tested length `l`) has non-positive
force.  These are the elements the skip removed without re-testing. -/
theorem skip_region_nonpos (cut : List α) (l m : ℕ) (hlc : l ≤ cut.length)
    (hm : l - shrinkCount (cut.take l).reverse < m) (hml : m < l) :
    ∀ x ∈ (cut.drop m).take (l - m), x ≤ 0 := by
  intro x hx
  have h1 : List.drop m (List.take l cut) = List.take (l - m) (List.drop m cut) :=
    List.drop_take l m cut
  rw [← h1] at hx
  have h2 : x ∈ ((cut.take l).drop m).reverse := List.mem_reverse.mpr hx
  rw [List.reverse_drop] at h2
  have hlen : (cut.take l).length = l := by
    simp [List.length_take]; omega
  rw [hlen] at h2
  have hsub : l - m ≤ shrinkCount (cut.take l).reverse - 1 := by omega
  have h3 : x ∈ (cut.take l).reverse.take (shrinkCount (cut.take l).reverse - 1) := by
    have heq : (cut.take l).reverse.take (l - m)
        = ((cut.take l).reverse.take (shrinkCount (cut.take l).reverse - 1)).take (l - m) := by
      rw [List.take_take]
      congr 1
      omega
    rw [heq] at h2
    exact List.mem_of_mem_take h2
  exact shrink_take_nonpos _ x h3

/-! ## The inner search of fastsplit -/

theorem fastFind_eq_none (cap : α) (cut : List α) :
    ∀ n, fastFind cap cut n = none ↔
      ∀ l, 1 ≤ l → l ≤ n → cap + (cut.take l).sum ≤ 0 := by
  intro n
  induction n with
  | zero =>
    constructor
    · intro _ l h1 h2; omega
    · intro _; simp [fastFind]
  | succ k ih =>
    simp only [fastFind]
    by_cases hc : 0 < cap + (cut.take (k + 1)).sum
    · rw [if_pos hc]
      constructor
      · intro h; cases h
      · intro h; exact absurd hc (not_lt.mpr (h (k + 1) (by omega) le_rfl))
    · rw [if_neg hc]
      rw [ih]
      constructor
      · intro h l h1 h2
        rcases Nat.lt_or_ge l (k + 1) with hlt | hge
        · exact h l h1 (by omega)
        · have : l = k + 1 := by omega
          subst this
          exact not_lt.mp hc
      · intro h l h1 h2
        exact h l h1 (by omega)

theorem fastFind_eq_some (cap : α) (cut : List α) :
    ∀ n l, fastFind cap cut n = some l →
      1 ≤ l ∧ l ≤ n ∧ 0 < cap + (cut.take l).sum ∧
        ∀ l2, l < l2 → l2 ≤ n → cap + (cut.take l2).sum ≤ 0 := by
  intro n
  induction n with
  | zero => intro l h; simp [fastFind] at h
  | succ k ih =>
    intro l h
    simp only [fastFind] at h
    by_cases hc : 0 < cap + (cut.take (k + 1)).sum
    · rw [if_pos hc] at h
      cases h
      exact ⟨by omega, le_rfl, hc, fun l2 h1 h2 => by omega⟩
    · rw [if_neg hc] at h
      obtain ⟨a1, a2, a3, a4⟩ := ih l h
      refine ⟨a1, by omega, a3, fun l2 h1 h2 => ?_⟩
      rcases Nat.lt_or_ge l2 (k + 1) with hlt | hge
      · exact a4 l2 h1 (by omega)
      · have : l2 = k + 1 := by omega
        subst this
        exact not_lt.mp hc

theorem fastFind_isSome_of_ex (cap : α) (cut : List α) (n l : ℕ)
    (h1 : 1 ≤ l) (h2 : l ≤ n) (h3 : 0 < cap + (cut.take l).sum) :
    ∃ l2, fastFind cap cut n = some l2 ∧ l ≤ l2 := by
  cases hf : fastFind cap cut n with
  | none =>
    rw [fastFind_eq_none] at hf
    exact absurd h3 (not_lt.mpr (hf l h1 h2))
  | some l2 =>
    obtain ⟨b1, b2, b3, b4⟩ := fastFind_eq_some cap cut n l2 hf
    refine ⟨l2, rfl, ?_⟩
    by_contra hcon
    exact absurd h3 (not_lt.mpr (b4 l (by omega) h2))

/-! ## Basic properties of fastsplit's loop -/

theorem posForceSum_nonneg (l : List α) : 0 ≤ posForceSum l := by
  apply List.sum_nonneg
  intro x hx
  have := List.of_mem_filter hx
  have : 0 < x := of_decide_eq_true this
  linarith

theorem posForceSum_eq_zero (l : List α) (h : ∀ x ∈ l, x ≤ 0) : posForceSum l = 0 := by
  unfold posForceSum
  have : l.filter (fun x => decide (0 < x)) = [] := by
    rw [List.filter_eq_nil_iff]
    intro x hx
    simp only [decide_eq_true_eq, not_lt]
    exact h x hx
  rw [this, List.sum_nil]

theorem fastGo_fuel : ∀ (f1 f2 : ℕ) (cap : α) (cut : List α) (cn : Bool),
    cut.length ≤ f1 → cut.length ≤ f2 →
    fastGo f1 cap cut cn = fastGo f2 cap cut cn := by
  intro f1
  induction f1 with
  | zero =>
    intro f2 cap cut cn h1 _
    have : cut = [] := List.length_eq_zero.mp (by omega)
    subst this
    cases f2 <;> rfl
  | succ k ih =>
    intro f2 cap cut cn h1 h2
    cases cut with
    | nil => cases f2 <;> rfl
    | cons c cs =>
      cases f2 with
      | zero => simp at h2
      | succ k2 =>
        simp only [fastGo]
        cases hf : fastFind cap (c :: cs) (c :: cs).length with
        | none => rfl
        | some l =>
          have hl := fastFind_eq_some cap (c :: cs) _ l hf
          have hdl : ((c :: cs).drop l).length ≤ k := by
            simp only [List.length_drop]
            simp only [List.length_cons] at h1 ⊢
            omega
          have hdl2 : ((c :: cs).drop l).length ≤ k2 := by
            simp only [List.length_drop]
            simp only [List.length_cons] at h2 ⊢
            omega
          dsimp only
          rw [ih k2 _ _ cn hdl hdl2]

theorem fastGo_sound : ∀ (fuel : ℕ) (cap : α) (cut : List α) (cn : Bool) (s : List ℕ),
    cut.length ≤ fuel → 0 < cap → fastGo fuel cap cut cn = some s →
    feasibleCB cn cap cut s = true := by
  intro fuel
  induction fuel with
  | zero =>
    intro cap cut cn s h1 _ h3
    have : cut = [] := List.length_eq_zero.mp (by omega)
    subst this
    cases h3
    simp [feasibleCB]
  | succ k ih =>
    intro cap cut cn s h1 hcap h3
    cases cut with
    | nil =>
      cases h3
      simp [feasibleCB]
    | cons c cs =>
      simp only [fastGo] at h3
      split at h3
      · simp at h3
      next l hf =>
        split at h3
        next hrec => simp at h3
        next rest hrec =>
          injection h3 with h3
          subst h3
          obtain ⟨hl1, hl2, hl3, _⟩ := fastFind_eq_some cap (c :: cs) _ l hf
          rw [feasibleCB_cons]
          refine ⟨hl1, hl2, hl3, ?_⟩
          apply ih _ _ cn rest
          · simp only [List.length_drop]
            simp only [List.length_cons] at h1 ⊢
            omega
          · split <;> [skip; exact hcap]
            have := posForceSum_nonneg ((c :: cs).take l)
            linarith
          · exact hrec

/-! ## Soundness and optimality of smartsplit's search loop -/

/-- After the loop has successfully tested prefix length `L` (feasible
prefix, recursive call under budget `bl - 2` returned `s0`), any feasible
split whose first part lies in `(L - shrink, L]` and whose part count is
below `bl` has at least `s0.length + 1` parts: exchanging its first part
for the full prefix `L` only moves non-positive-force units out of the
remainder, and the recursive call is optimal for the remainder.  This is
why the tail-shrinking skip loses no optimal solution. -/
theorem tested_len_bound (rec : List α → ℤ → Option (List ℕ)) (cap : α) (cut : List α)
    (hcut : cut ≠ [])
    (hcomplete : ∀ cut2 mp2 t, cut2.length < cut.length → feasibleB cap cut2 t = true →
      (cut2 ≠ [] → (t.length : ℤ) ≤ mp2) → ∃ s, rec cut2 mp2 = some s ∧ s.length ≤ t.length)
    (L : ℕ) (bl : ℤ) (s0 t : List ℕ)
    (hLc : L ≤ cut.length)
    (hpre : 0 < cap + (cut.take L).sum)
    (hrec : rec (cut.drop L) (bl - 2) = some s0)
    (ht : feasibleB cap cut t = true)
    (htlen : (t.length : ℤ) < bl)
    (hlow : L - shrinkCount (cut.take L).reverse < t.headD 0)
    (hhigh : t.headD 0 ≤ L) :
    s0.length + 1 ≤ t.length := by
  have hpos : 0 < cut.length := List.length_pos.mpr hcut
  have hdroplen : (cut.drop L).length < cut.length := by
    simp only [List.length_drop]
    omega
  rcases eq_or_lt_of_le hhigh with heq | hlt
  · cases t with
    | nil => exact absurd (feasibleB_of_nil _ _ ht) hcut
    | cons m rest =>
      have hm : m = L := by simpa using heq
      subst hm
      rw [feasibleB_cons] at ht
      obtain ⟨_, _, _, hrest⟩ := ht
      obtain ⟨s2, hs2, hlen2⟩ := hcomplete (cut.drop m) (bl - 2) rest hdroplen hrest
        (fun _ => by simp only [List.length_cons] at htlen; omega)
      rw [hrec] at hs2
      injection hs2 with h
      subst h
      simp only [List.length_cons]
      omega
  · obtain ⟨s2, ht2, hlen2⟩ := feasibleB_first_exchange cap cut t (t.headD 0) L ht rfl hlt hLc
      (skip_region_nonpos cut L (t.headD 0) hLc hlow hlt) hpre
    rw [feasibleB_cons] at ht2
    obtain ⟨_, _, _, hs2⟩ := ht2
    simp only [List.length_cons] at hlen2
    obtain ⟨s3, hs3, hlen3⟩ := hcomplete (cut.drop L) (bl - 2) s2 hdroplen hs2
      (fun _ => by omega)
    rw [hrec] at hs3
    injection hs3 with h
    subst h
    omega

/-- The main invariant of smartsplit's `while this_len > 0` loop: (1) any
returned split is feasible and no longer than the current best bound, and
strictly better when no best exists yet; (2) once a best exists the loop
always returns a split; (3) for any feasible split `t` beating the current
bound whose first part is at most `this_len`, the loop returns a split at
least as short as `t`. -/
theorem smartLoopGo_spec (rec : List α → ℤ → Option (List ℕ)) (cap : α) (cut : List α)
    (hcut : cut ≠ [])
    (hsound : ∀ cut2 mp2 s, cut2.length < cut.length → rec cut2 mp2 = some s →
      feasibleB cap cut2 s = true)
    (hcomplete : ∀ cut2 mp2 t, cut2.length < cut.length → feasibleB cap cut2 t = true →
      (cut2 ≠ [] → (t.length : ℤ) ≤ mp2) → ∃ s, rec cut2 mp2 = some s ∧ s.length ≤ t.length) :
    ∀ (lfuel tl : ℕ) (best : Option (List ℕ)) (bl : ℤ),
      tl ≤ lfuel → tl ≤ cut.length → 2 ≤ bl →
      (best = none ∨ ∃ b, best = some b ∧ feasibleB cap cut b = true ∧ (b.length : ℤ) = bl) →
      (∀ s, smartLoopGo rec cap cut lfuel tl best bl = some s →
          feasibleB cap cut s = true ∧ (s.length : ℤ) ≤ bl ∧
            (best = none → (s.length : ℤ) < bl)) ∧
      ((∃ b, best = some b) → ∃ s, smartLoopGo rec cap cut lfuel tl best bl = some s) ∧
      (∀ t, feasibleB cap cut t = true → (t.length : ℤ) < bl → t.headD 0 ≤ tl →
          ∃ s, smartLoopGo rec cap cut lfuel tl best bl = some s ∧ s.length ≤ t.length) := by
  intro lfuel
  induction lfuel with
  | zero =>
    intro tl best bl htl _ _ hbest
    have heq : smartLoopGo rec cap cut 0 tl best bl = best := rfl
    refine ⟨?_, ?_, ?_⟩
    · intro s hs
      rw [heq] at hs
      rcases hbest with h | ⟨b, hb, hfb, hlb⟩
      · rw [h] at hs; exact Option.noConfusion hs
      · rw [hb] at hs
        injection hs with h2
        subst h2
        refine ⟨hfb, le_of_eq hlb, fun hcontra => ?_⟩
        rw [hcontra] at hb
        exact Option.noConfusion hb
    · rintro ⟨b, hb⟩
      exact ⟨b, by rw [heq, hb]⟩
    · intro t htf _ hhead
      have := (feasibleB_head cap cut t htf hcut).1
      omega
  | succ lf ih =>
    intro tl best bl htl htlc hbl hbest
    cases tl with
    | zero =>
      have heq : smartLoopGo rec cap cut (lf + 1) 0 best bl = best := rfl
      refine ⟨?_, ?_, ?_⟩
      · intro s hs
        rw [heq] at hs
        rcases hbest with h | ⟨b, hb, hfb, hlb⟩
        · rw [h] at hs; exact Option.noConfusion hs
        · rw [hb] at hs
          injection hs with h2
          subst h2
          refine ⟨hfb, le_of_eq hlb, fun hcontra => ?_⟩
          rw [hcontra] at hb
          exact Option.noConfusion hb
      · rintro ⟨b, hb⟩
        exact ⟨b, by rw [heq, hb]⟩
      · intro t htf _ hhead
        have := (feasibleB_head cap cut t htf hcut).1
        omega
    | succ k =>
      have hpos : 0 < cut.length := List.length_pos.mpr hcut
      by_cases hpre : 0 < cap + (cut.take (k + 1)).sum
      · cases hrec : rec (cut.drop (k + 1)) (bl - 2) with
        | none =>
          have heq : smartLoopGo rec cap cut (lf + 1) (k + 1) best bl
              = smartLoopGo rec cap cut lf k best bl := by
            simp only [smartLoopGo]
            rw [if_pos hpre, hrec]
          obtain ⟨P1, P2, P3⟩ := ih k best bl (by omega) (by omega) hbl hbest
          rw [heq]
          refine ⟨P1, P2, ?_⟩
          intro t htf htlen hhead
          rcases Nat.lt_or_ge (t.headD 0) (k + 1) with hh | hh
          · exact P3 t htf htlen (by omega)
          · exfalso
            have hH : t.headD 0 = k + 1 := by omega
            cases t with
            | nil => exact hcut (feasibleB_of_nil _ _ htf)
            | cons m rest =>
              have hm : m = k + 1 := by simpa using hH
              subst hm
              rw [feasibleB_cons] at htf
              obtain ⟨_, _, _, hrest⟩ := htf
              obtain ⟨s2, hs2, _⟩ := hcomplete (cut.drop (k + 1)) (bl - 2) rest
                (by simp only [List.length_drop]; omega) hrest
                (fun _ => by simp only [List.length_cons] at htlen; omega)
              rw [hrec] at hs2
              exact Option.noConfusion hs2
        | some s0 =>
          have hfeas_split : feasibleB cap cut ((k + 1) :: s0) = true := by
            rw [feasibleB_cons]
            exact ⟨by omega, by omega, hpre,
              hsound (cut.drop (k + 1)) (bl - 2) s0
                (by simp only [List.length_drop]; omega) hrec⟩
          have hshrink1 : 1 ≤ shrinkCount (cut.take (k + 1)).reverse := by
            apply one_le_shrinkCount
            simp only [ne_eq, List.reverse_eq_nil_iff]
            intro hc
            have hlc := congrArg List.length hc
            simp only [List.length_take, List.length_nil] at hlc
            omega
          have heq0 : smartLoopGo rec cap cut (lf + 1) (k + 1) best bl
              = if (((k + 1) :: s0).length : ℤ) < bl then
                  (if ((k + 1) :: s0).length = 1 then some ((k + 1) :: s0)
                   else smartLoopGo rec cap cut lf
                      (k + 1 - shrinkCount (cut.take (k + 1)).reverse)
                      (some ((k + 1) :: s0)) (((k + 1) :: s0).length : ℤ))
                else smartLoopGo rec cap cut lf
                    (k + 1 - shrinkCount (cut.take (k + 1)).reverse) best bl := by
            simp only [smartLoopGo]
            rw [if_pos hpre, hrec]
          by_cases hlt : (((k + 1) :: s0).length : ℤ) < bl
          · by_cases hone : ((k + 1) :: s0).length = 1
            · have heq : smartLoopGo rec cap cut (lf + 1) (k + 1) best bl
                  = some ((k + 1) :: s0) := by
                rw [heq0, if_pos hlt, if_pos hone]
              rw [heq]
              refine ⟨?_, ?_, ?_⟩
              · intro s hs
                injection hs with h2
                subst h2
                exact ⟨hfeas_split, le_of_lt hlt, fun _ => hlt⟩
              · intro _
                exact ⟨_, rfl⟩
              · intro t htf _ _
                refine ⟨_, rfl, ?_⟩
                have ht1 : 1 ≤ t.length := by
                  cases t with
                  | nil => exact absurd (feasibleB_of_nil _ _ htf) hcut
                  | cons a b => simp
                omega
            · have heq : smartLoopGo rec cap cut (lf + 1) (k + 1) best bl
                  = smartLoopGo rec cap cut lf
                      (k + 1 - shrinkCount (cut.take (k + 1)).reverse)
                      (some ((k + 1) :: s0)) (((k + 1) :: s0).length : ℤ) := by
                rw [heq0, if_pos hlt, if_neg hone]
              have hlen2 : (2 : ℤ) ≤ (((k + 1) :: s0).length : ℤ) := by
                simp only [List.length_cons] at hone ⊢
                omega
              obtain ⟨P1, P2, P3⟩ := ih (k + 1 - shrinkCount (cut.take (k + 1)).reverse)
                (some ((k + 1) :: s0)) (((k + 1) :: s0).length : ℤ)
                (by omega) (by omega) hlen2
                (Or.inr ⟨(k + 1) :: s0, rfl, hfeas_split, rfl⟩)
              rw [heq]
              refine ⟨?_, ?_, ?_⟩
              · intro s hs
                obtain ⟨q1, q2, _⟩ := P1 s hs
                exact ⟨q1, by omega, fun _ => by omega⟩
              · intro _
                exact P2 ⟨_, rfl⟩
              · intro t htf htlen hhead
                by_cases hcmp : (t.length : ℤ) < (((k + 1) :: s0).length : ℤ)
                · rcases Nat.lt_or_ge (k + 1 - shrinkCount (cut.take (k + 1)).reverse)
                      (t.headD 0) with hh | hh
                  · exfalso
                    have hb := tested_len_bound rec cap cut hcut hcomplete (k + 1) bl s0 t
                      (by omega) hpre hrec htf htlen hh hhead
                    simp only [List.length_cons] at hcmp
                    omega
                  · exact P3 t htf hcmp hh
                · obtain ⟨s, hs⟩ := P2 ⟨_, rfl⟩
                  obtain ⟨_, q2, _⟩ := P1 s hs
                  refine ⟨s, hs, ?_⟩
                  omega
          · have heq : smartLoopGo rec cap cut (lf + 1) (k + 1) best bl
                = smartLoopGo rec cap cut lf
                    (k + 1 - shrinkCount (cut.take (k + 1)).reverse) best bl := by
              rw [heq0, if_neg hlt]
            obtain ⟨P1, P2, P3⟩ := ih (k + 1 - shrinkCount (cut.take (k + 1)).reverse) best bl
              (by omega) (by omega) hbl hbest
            rw [heq]
            refine ⟨P1, P2, ?_⟩
            intro t htf htlen hhead
            rcases Nat.lt_or_ge (k + 1 - shrinkCount (cut.take (k + 1)).reverse)
                (t.headD 0) with hh | hh
            · exfalso
              have hb := tested_len_bound rec cap cut hcut hcomplete (k + 1) bl s0 t
                (by omega) hpre hrec htf htlen hh hhead
              simp only [List.length_cons, not_lt] at hlt
              omega
            · exact P3 t htf htlen hh
      · have heq : smartLoopGo rec cap cut (lf + 1) (k + 1) best bl
            = smartLoopGo rec cap cut lf k best bl := by
          simp only [smartLoopGo]
          rw [if_neg hpre]
        obtain ⟨P1, P2, P3⟩ := ih k best bl (by omega) (by omega) hbl hbest
        rw [heq]
        refine ⟨P1, P2, ?_⟩
        intro t htf htlen hhead
        rcases Nat.lt_or_ge (t.headD 0) (k + 1) with hh | hh
        · exact P3 t htf htlen (by omega)
        · exfalso
          have hH : t.headD 0 = k + 1 := by omega
          cases t with
          | nil => exact hcut (feasibleB_of_nil _ _ htf)
          | cons m rest =>
            have hm : m = k + 1 := by simpa using hH
            subst hm
            rw [feasibleB_cons] at htf
            exact hpre htf.2.2.1

/-- Soundness and completeness of smartsplit's recursive body, for any fuel
exceeding the cut length: every returned split is feasible and within the
part budget, and whenever a feasible split within the budget exists, the
body returns one that is at least as short. -/
theorem smartGo_spec : ∀ (fuel : ℕ) (cap : α) (cut : List α) (mp : ℤ),
    0 < cap → cut.length < fuel →
    (∀ s, smartGo fuel cap cut mp = some s →
        feasibleB cap cut s = true ∧ (cut = [] → s = []) ∧
          (cut ≠ [] → (s.length : ℤ) ≤ mp)) ∧
    (∀ t, feasibleB cap cut t = true → (cut ≠ [] → (t.length : ℤ) ≤ mp) →
        ∃ s, smartGo fuel cap cut mp = some s ∧ s.length ≤ t.length) := by
  intro fuel
  induction fuel with
  | zero =>
    intro cap cut mp _ h
    exact absurd h (Nat.not_lt_zero _)
  | succ f ih =>
    intro cap cut mp hcap hlen
    by_cases hnil : cut.length = 0
    · have hc : cut = [] := List.length_eq_zero.mp hnil
      subst hc
      have heq : smartGo (f + 1) cap [] mp = some [] := by simp [smartGo]
      constructor
      · intro s hs
        rw [heq] at hs
        injection hs with h
        subst h
        exact ⟨by simp [feasibleB, feasibleCB], fun _ => rfl, fun h => absurd rfl h⟩
      · intro t htf _
        have := (feasibleB_nil cap t).mp htf
        subst this
        exact ⟨[], heq, le_rfl⟩
    · have hcut : cut ≠ [] := fun h => hnil (by simp [h])
      by_cases hmp0 : mp ≤ 0
      · have heq : smartGo (f + 1) cap cut mp = none := by
          simp only [smartGo]
          rw [if_neg hnil, if_pos hmp0]
        constructor
        · intro s hs
          rw [heq] at hs
          exact Option.noConfusion hs
        · intro t htf hbud
          exfalso
          have h1 := (feasibleB_head cap cut t htf hcut).1
          have ht1 : 1 ≤ t.length := by
            cases t with
            | nil => simp at h1
            | cons a b => simp
          have := hbud hcut
          omega
      · by_cases hmp1 : mp = 1
        · by_cases hsum : 0 < cap + cut.sum
          · have heq : smartGo (f + 1) cap cut mp = some [cut.length] := by
              simp only [smartGo]
              rw [if_neg hnil, if_neg hmp0, if_pos hmp1, if_pos hsum]
            constructor
            · intro s hs
              rw [heq] at hs
              injection hs with h
              subst h
              refine ⟨?_, fun h => absurd h hcut, fun _ => by simp; omega⟩
              rw [feasibleB_cons]
              refine ⟨by omega, le_rfl, by rwa [List.take_length], ?_⟩
              simp [List.drop_length, feasibleB, feasibleCB]
            · intro t htf hbud
              have h1 := (feasibleB_head cap cut t htf hcut).1
              have ht1 : 1 ≤ t.length := by
                cases t with
                | nil => simp at h1
                | cons a b => simp
              exact ⟨[cut.length], heq, by simpa using ht1⟩
          · have heq : smartGo (f + 1) cap cut mp = none := by
              simp only [smartGo]
              rw [if_neg hnil, if_neg hmp0, if_pos hmp1, if_neg hsum]
            constructor
            · intro s hs
              rw [heq] at hs
              exact Option.noConfusion hs
            · intro t htf hbud
              exfalso
              have hb := hbud hcut
              have h1 := (feasibleB_head cap cut t htf hcut).1
              cases t with
              | nil => simp at h1
              | cons l rest =>
                have hrnil : rest = [] := by
                  cases rest with
                  | nil => rfl
                  | cons a b => simp only [List.length_cons] at hb; omega
                subst hrnil
                rw [feasibleB_cons] at htf
                obtain ⟨u1, u2, u3, u4⟩ := htf
                have hld : cut.drop l = [] := feasibleB_of_nil _ _ u4
                have hlen2 := congrArg List.length hld
                simp only [List.length_drop, List.length_nil] at hlen2
                have hl : l = cut.length := by omega
                rw [hl, List.take_length] at u3
                exact hsum u3
        · have hmp2 : 2 ≤ mp := by omega
          have heq : smartGo (f + 1) cap cut mp
              = smartLoopGo (fun c m => smartGo f cap c m) cap cut cut.length cut.length
                  none (mp + 1) := by
            simp only [smartGo]
            rw [if_neg hnil, if_neg hmp0, if_neg hmp1]
          have hsound2 : ∀ (cut2 : List α) (mp2 : ℤ) (s : List ℕ),
              cut2.length < cut.length →
              (fun c m => smartGo f cap c m) cut2 mp2 = some s →
              feasibleB cap cut2 s = true := by
            intro cut2 mp2 s h2 hs
            exact ((ih cap cut2 mp2 hcap (by omega)).1 s hs).1
          have hcomplete2 : ∀ (cut2 : List α) (mp2 : ℤ) (t : List ℕ),
              cut2.length < cut.length →
              feasibleB cap cut2 t = true → (cut2 ≠ [] → (t.length : ℤ) ≤ mp2) →
              ∃ s, (fun c m => smartGo f cap c m) cut2 mp2 = some s ∧
                s.length ≤ t.length := by
            intro cut2 mp2 t h2 htf hbud
            exact (ih cap cut2 mp2 hcap (by omega)).2 t htf hbud
          obtain ⟨P1, P2, P3⟩ := smartLoopGo_spec (fun c m => smartGo f cap c m) cap cut hcut
            hsound2 hcomplete2 cut.length cut.length none (mp + 1)
            le_rfl le_rfl (by omega) (Or.inl rfl)
          constructor
          · intro s hs
            rw [heq] at hs
            obtain ⟨q1, _, q3⟩ := P1 s hs
            refine ⟨q1, fun h => absurd h hcut, fun _ => ?_⟩
            have := q3 rfl
            omega
          · intro t htf hbud
            have hh := feasibleB_head cap cut t htf hcut
            obtain ⟨s, hs, hsl⟩ := P3 t htf (by have := hbud hcut; omega) hh.2
            exact ⟨s, by rw [heq]; exact hs, hsl⟩

/-- Unpacking the smartsplit wrapper: a returned split implies the
assertion passed, and the split is feasible within the part budget. -/
theorem smartsplit_sound (cap : α) (cut : List α) (mp : ℤ) (s : List ℕ)
    (h : smartsplit cap cut mp = .split s) :
    0 < cap ∧ feasibleB cap cut s = true ∧ (cut = [] → s = []) ∧
      (cut ≠ [] → (s.length : ℤ) ≤ mp) := by
  unfold smartsplit at h
  by_cases hcap : cap ≤ 0
  · rw [if_pos hcap] at h
    exact SplitResult.noConfusion h
  · rw [if_neg hcap] at h
    push_neg at hcap
    split at h
    · exact SplitResult.noConfusion h
    next s2 hgo =>
      injection h with h2
      subst h2
      have := (smartGo_spec (cut.length + 1) cap cut mp hcap (by omega)).1 s2 hgo
      exact ⟨hcap, this.1, this.2.1, this.2.2⟩

/-- Completeness of the smartsplit wrapper: when some feasible split within
the part budget exists, smartsplit returns a feasible split at least as
short. -/
theorem smartsplit_complete (cap : α) (cut : List α) (mp : ℤ) (t : List ℕ)
    (hcap : 0 < cap) (htf : feasibleB cap cut t = true)
    (hbud : cut ≠ [] → (t.length : ℤ) ≤ mp) :
    ∃ s, smartsplit cap cut mp = .split s ∧ s.length ≤ t.length := by
  obtain ⟨s, hs, hl⟩ :=
    (smartGo_spec (cut.length + 1) cap cut mp hcap (by omega)).2 t htf hbud
  refine ⟨s, ?_, hl⟩
  unfold smartsplit
  rw [if_neg (not_le.mpr hcap), hs]

/-! ## The fastsplit wrapper and its greedy-step characterization -/

/-- Unpacking the fastsplit wrapper: a returned split implies the assertion
passed and the split is feasible under the collection rule in force. -/
theorem fastsplit_sound (cap : α) (cut : List α) (cn : Bool) (s : List ℕ)
    (h : fastsplit cap cut cn = .split s) :
    0 < cap ∧ feasibleCB cn cap cut s = true := by
  unfold fastsplit at h
  by_cases hcap : cap ≤ 0
  · rw [if_pos hcap] at h
    exact SplitResult.noConfusion h
  · rw [if_neg hcap] at h
    push_neg at hcap
    split at h
    · exact SplitResult.noConfusion h
    next s2 hgo =>
      injection h with h2
      subst h2
      exact ⟨hcap, fastGo_sound cut.length cap cut cn s2 le_rfl hcap hgo⟩

/-- Prepend a subcut length to a successful split, passing failures
through: the shape of one iteration of fastsplit's outer loop. -/
def consSplit (l : ℕ) : SplitResult → SplitResult
  | .split s => .split (l :: s)
  | r => r

/-- If no prefix of any length is feasible, fastsplit fails. -/
theorem fastsplit_fail (cap : α) (cut : List α) (cn : Bool) (hcap : 0 < cap)
    (hcut : cut ≠ [])
    (h : ∀ l, 1 ≤ l → l ≤ cut.length → cap + (cut.take l).sum ≤ 0) :
    fastsplit cap cut cn = .infeasible := by
  cases cut with
  | nil => exact absurd rfl hcut
  | cons c cs =>
    have hfind : fastFind cap (c :: cs) (c :: cs).length = none := by
      rw [fastFind_eq_none]
      exact h
    unfold fastsplit
    rw [if_neg (not_le.mpr hcap)]
    show (match fastGo (cs.length + 1) cap (c :: cs) cn with
      | none => SplitResult.infeasible
      | some s => SplitResult.split s) = SplitResult.infeasible
    simp only [fastGo]
    rw [hfind]

/-- One step of fastsplit: when some prefix is feasible, the recorded first
subcut is the greatest feasible prefix length, capacity is augmented by the
positive forces of that prefix exactly when `collect_net` is set, and the
result is that length prepended to fastsplit of the remainder. -/
theorem fastsplit_step (cap : α) (cut : List α) (cn : Bool) (hcap : 0 < cap)
    (l0 : ℕ) (hl0 : 1 ≤ l0) (hl0c : l0 ≤ cut.length)
    (hfeas : 0 < cap + (cut.take l0).sum) :
    ∃ lmax, l0 ≤ lmax ∧ lmax ≤ cut.length ∧ 0 < cap + (cut.take lmax).sum ∧
      (∀ l2, lmax < l2 → l2 ≤ cut.length → cap + (cut.take l2).sum ≤ 0) ∧
      fastsplit cap cut cn
        = consSplit lmax
            (fastsplit (if cn then cap + posForceSum (cut.take lmax) else cap)
              (cut.drop lmax) cn) := by
  cases cut with
  | nil => simp at hl0c; omega
  | cons c cs =>
    obtain ⟨lmax, hfind, hge⟩ :=
      fastFind_isSome_of_ex cap (c :: cs) (c :: cs).length l0 hl0 hl0c hfeas
    obtain ⟨b1, b2, b3, b4⟩ := fastFind_eq_some cap (c :: cs) _ lmax hfind
    refine ⟨lmax, hge, b2, b3, b4, ?_⟩
    have hcap2 : 0 < (if cn = true then cap + posForceSum ((c :: cs).take lmax) else cap) := by
      split
      · have := posForceSum_nonneg ((c :: cs).take lmax)
        linarith
      · exact hcap
    have hstep0 : fastGo (cs.length + 1) cap (c :: cs) cn
        = match fastGo cs.length
            (if cn = true then cap + posForceSum ((c :: cs).take lmax) else cap)
            ((c :: cs).drop lmax) cn with
          | none => none
          | some rest => some (lmax :: rest) := by
      simp only [fastGo]
      rw [hfind]
    have hfuel : fastGo cs.length
          (if cn = true then cap + posForceSum ((c :: cs).take lmax) else cap)
          ((c :: cs).drop lmax) cn
        = fastGo ((c :: cs).drop lmax).length
            (if cn = true then cap + posForceSum ((c :: cs).take lmax) else cap)
            ((c :: cs).drop lmax) cn := by
      apply fastGo_fuel
      · simp only [List.length_drop, List.length_cons]
        omega
      · exact le_rfl
    rw [hfuel] at hstep0
    unfold fastsplit
    rw [if_neg (not_le.mpr hcap), if_neg (not_le.mpr hcap2)]
    show (match fastGo (cs.length + 1) cap (c :: cs) cn with
      | none => SplitResult.infeasible
      | some s => SplitResult.split s) = _
    rw [hstep0]
    cases hinner : fastGo ((c :: cs).drop lmax).length
        (if cn = true then cap + posForceSum ((c :: cs).take lmax) else cap)
        ((c :: cs).drop lmax) cn with
    | none => rfl
    | some rest => rfl

/-! ## Positive-force sums and pointwise monotonicity -/

theorem posForceSum_eq_map_max (l : List α) :
    posForceSum l = (l.map (fun x => max x 0)).sum := by
  induction l with
  | nil => rfl
  | cons x xs ih =>
    simp only [posForceSum, List.filter_cons, List.map_cons, List.sum_cons] at *
    by_cases hx : 0 < x
    · rw [if_pos (by simpa using hx), List.sum_cons, ih, max_eq_left hx.le]
    · rw [if_neg (by simpa using hx), ih, max_eq_right (not_lt.mp hx), zero_add]

theorem sum_le_posForceSum (l : List α) : l.sum ≤ posForceSum l := by
  rw [posForceSum_eq_map_max]
  induction l with
  | nil => simp
  | cons x xs ih =>
    simp only [List.sum_cons, List.map_cons]
    have := le_max_left x (0 : α)
    linarith

theorem posForceSum_append (a b : List α) :
    posForceSum (a ++ b) = posForceSum a + posForceSum b := by
  simp [posForceSum, List.filter_append, List.sum_append]

theorem posForceSum_take_add (cut : List α) (a b : ℕ) :
    posForceSum (cut.take (a + b))
      = posForceSum (cut.take a) + posForceSum ((cut.drop a).take b) := by
  rw [List.take_add, posForceSum_append]

theorem posForceSum_mono (a b : List α) (h : List.Forall₂ (· ≤ ·) a b) :
    posForceSum a ≤ posForceSum b := by
  rw [posForceSum_eq_map_max, posForceSum_eq_map_max]
  apply List.Forall₂.sum_le_sum
  induction h with
  | nil => constructor
  | cons hxy _ ih => exact List.Forall₂.cons (max_le_max hxy le_rfl) ih

/-- Feasibility of a split (without collection) transfers to any pointwise
larger capacity and member forces. -/
theorem feasibleB_mono : ∀ (t : List ℕ) (cap cap2 : α) (cut cut2 : List α),
    cap ≤ cap2 → List.Forall₂ (· ≤ ·) cut cut2 → feasibleB cap cut t = true →
    feasibleB cap2 cut2 t = true := by
  intro t
  induction t with
  | nil =>
    intro cap cap2 cut cut2 _ hf h
    have hc : cut = [] := feasibleB_of_nil _ _ h
    subst hc
    have : cut2 = [] := by
      cases hf
      rfl
    subst this
    simp [feasibleB, feasibleCB]
  | cons l s ih =>
    intro cap cap2 cut cut2 hc hf h
    rw [feasibleB_cons] at h ⊢
    obtain ⟨h1, h2, h3, h4⟩ := h
    have hlen := hf.length_eq
    refine ⟨h1, by omega, ?_, ?_⟩
    · have hsum : (cut.take l).sum ≤ (cut2.take l).sum :=
        (List.forall₂_take l hf).sum_le_sum
      linarith
    · exact ih _ _ _ _ hc (List.forall₂_drop l hf) h4

/-- Monotonicity of fastsplit's collecting pass: if the greedy collecting
loop succeeds on `(p, cut)`, it also succeeds on any cut obtained by
dropping a front portion of `cut` (whose positive forces are credited to
the capacity) and raising the remaining forces pointwise, with any capacity
at least `p` plus the credited collection.  In particular (d = 0) success
is monotone in the capacity and the member forces. -/
theorem fastGo_collect_mono : ∀ (N : ℕ) (cut : List α), cut.length ≤ N →
    ∀ (p : α) (d : ℕ) (cut2 : List α) (p2 : α) (s : List ℕ),
    fastGo cut.length p cut true = some s →
    d ≤ cut.length →
    List.Forall₂ (· ≤ ·) (cut.drop d) cut2 →
    p + posForceSum (cut.take d) ≤ p2 →
    ∃ s2, fastGo cut2.length p2 cut2 true = some s2 := by
  intro N
  induction N with
  | zero =>
    intro cut hN p d cut2 p2 s _ _ hf _
    have hc : cut = [] := List.length_eq_zero.mp (by omega)
    subst hc
    have hc2 : cut2 = [] := by
      simp only [List.drop_nil] at hf
      cases hf
      rfl
    subst hc2
    exact ⟨[], rfl⟩
  | succ n ihN =>
    intro cut hN p d cut2 p2 s hgo hd hf hp
    cases cut2 with
    | nil => exact ⟨[], rfl⟩
    | cons e es =>
      have hlen2 : (cut.drop d).length = (e :: es).length := hf.length_eq
      simp only [List.length_drop, List.length_cons] at hlen2
      have hdlt : d < cut.length := by omega
      cases cut with
      | nil => simp at hdlt
      | cons c cs =>
        simp only [List.length_cons] at hN hd hdlt hlen2
        show ∃ s2, fastGo (es.length + 1) p2 (e :: es) true = some s2
        -- unpack the successful step on (p, c :: cs)
        have hgo2 : fastGo (cs.length + 1) p (c :: cs) true = some s := hgo
        simp only [fastGo] at hgo2
        split at hgo2
        · exact Option.noConfusion hgo2
        next L hfind =>
          obtain ⟨hL1, hL2, hL3, hLmax⟩ := fastFind_eq_some p (c :: cs) _ L hfind
          simp only [List.length_cons] at hL2 hLmax
          split at hgo2
          next hin => exact Option.noConfusion hgo2
          next rest hin =>
            rw [if_pos (by trivial)] at hin
            rw [fastGo_fuel cs.length ((c :: cs).drop L).length _ _ true
              (by simp only [List.length_drop, List.length_cons]; omega) le_rfl] at hin
            rcases Nat.lt_or_ge d L with hdL | hdL
            · -- d < L: the transferred prefix of length L - d is feasible
              have htsplit : (c :: cs).take L
                  = (c :: cs).take d ++ ((c :: cs).drop d).take (L - d) := by
                have := List.take_add (c :: cs) d (L - d)
                rwa [show d + (L - d) = L from by omega] at this
              have hsum2 : ((c :: cs).take d).sum
                    + (((c :: cs).drop d).take (L - d)).sum = ((c :: cs).take L).sum := by
                rw [htsplit, List.sum_append]
              have hsle : (((c :: cs).drop d).take (L - d)).sum
                  ≤ ((e :: es).take (L - d)).sum :=
                (List.forall₂_take (L - d) hf).sum_le_sum
              have hposd := sum_le_posForceSum ((c :: cs).take d)
              have hfeas2 : 0 < p2 + ((e :: es).take (L - d)).sum := by linarith
              obtain ⟨L2, hfind2, hgeL2⟩ := fastFind_isSome_of_ex p2 (e :: es)
                (e :: es).length (L - d) (by omega)
                (by simp only [List.length_cons]; omega) hfeas2
              obtain ⟨g1, g2, g3, g4⟩ := fastFind_eq_some p2 (e :: es) _ L2 hfind2
              simp only [List.length_cons] at g2
              -- apply the induction hypothesis to the remainder after L
              have hrec : ∃ r2, fastGo ((e :: es).drop L2).length
                  (p2 + posForceSum ((e :: es).take L2)) ((e :: es).drop L2) true
                  = some r2 := by
                refine ihN ((c :: cs).drop L)
                  (by simp only [List.length_drop, List.length_cons]; omega)
                  (p + posForceSum ((c :: cs).take L)) (d + L2 - L)
                  ((e :: es).drop L2) (p2 + posForceSum ((e :: es).take L2)) rest hin
                  ?_ ?_ ?_
                · simp only [List.length_drop, List.length_cons]
                  omega
                · have h1 : ((c :: cs).drop L).drop (d + L2 - L) = (c :: cs).drop (d + L2) := by
                    rw [List.drop_drop]
                    congr 1
                    omega
                  have h2 : ((c :: cs).drop d).drop L2 = (c :: cs).drop (d + L2) := by
                    rw [List.drop_drop]
                  rw [h1, ← h2]
                  exact List.forall₂_drop L2 hf
                · have hsplit1 : posForceSum ((c :: cs).take (d + L2))
                      = posForceSum ((c :: cs).take L)
                        + posForceSum (((c :: cs).drop L).take (d + L2 - L)) := by
                    have := posForceSum_take_add (c :: cs) L (d + L2 - L)
                    rwa [show L + (d + L2 - L) = d + L2 from by omega] at this
                  have hsplit2 : posForceSum ((c :: cs).take (d + L2))
                      = posForceSum ((c :: cs).take d)
                        + posForceSum (((c :: cs).drop d).take L2) :=
                    posForceSum_take_add (c :: cs) d L2
                  have hmono : posForceSum (((c :: cs).drop d).take L2)
                      ≤ posForceSum ((e :: es).take L2) :=
                    posForceSum_mono _ _ (List.forall₂_take L2 hf)
                  linarith
              obtain ⟨r2, hr2⟩ := hrec
              refine ⟨L2 :: r2, ?_⟩
              have hstep : fastGo (es.length + 1) p2 (e :: es) true
                  = match fastGo es.length
                      (if true = true then p2 + posForceSum ((e :: es).take L2) else p2)
                      ((e :: es).drop L2) true with
                    | none => none
                    | some rest2 => some (L2 :: rest2) := by
                simp only [fastGo]
                rw [hfind2]
              rw [hstep, if_pos (by trivial)]
              rw [fastGo_fuel es.length ((e :: es).drop L2).length _ _ true
                (by simp only [List.length_drop, List.length_cons]; omega) le_rfl]
              rw [hr2]
            · -- L ≤ d: the whole first subcut was already dropped
              refine ihN ((c :: cs).drop L)
                (by simp only [List.length_drop, List.length_cons]; omega)
                (p + posForceSum ((c :: cs).take L)) (d - L) (e :: es) p2 rest hin
                ?_ ?_ ?_
              · simp only [List.length_drop, List.length_cons]
                omega
              · have h1 : ((c :: cs).drop L).drop (d - L) = (c :: cs).drop d := by
                  rw [List.drop_drop]
                  congr 1
                  omega
                rw [h1]
                exact hf
              · have hsplit1 : posForceSum ((c :: cs).take d)
                    = posForceSum ((c :: cs).take L)
                      + posForceSum (((c :: cs).drop L).take (d - L)) := by
                  have := posForceSum_take_add (c :: cs) L (d - L)
                  rwa [show L + (d - L) = d from by omega] at this
                linarith

/-! ## Python max and the dispatch policy -/

theorem pyMax_eq_none (c : List α) : pyMax c = none ↔ c = [] := by
  cases c with
  | nil => simp [pyMax]
  | cons x xs =>
    simp only [pyMax]
    cases h : pyMax xs <;> simp

theorem pyMax_spec : ∀ (c : List α) (m : α), pyMax c = some m →
    m ∈ c ∧ ∀ x ∈ c, x ≤ m := by
  intro c
  induction c with
  | nil => intro m h; exact Option.noConfusion h
  | cons x xs ih =>
    intro m h
    simp only [pyMax] at h
    cases h2 : pyMax xs with
    | none =>
      rw [h2] at h
      injection h with h3
      subst h3
      have hnil : xs = [] := (pyMax_eq_none xs).mp h2
      subst hnil
      simp
    | some m2 =>
      rw [h2] at h
      injection h with h3
      subst h3
      obtain ⟨hmem, hmax⟩ := ih m2 h2
      constructor
      · rcases max_choice x m2 with hc | hc <;> rw [hc]
        · simp
        · exact List.mem_cons_of_mem _ hmem
      · intro y hy
        rcases List.mem_cons.mp hy with rfl | hy2
        · exact le_max_left _ _
        · exact le_trans (hmax y hy2) (le_max_right _ _)

theorem pyMax_isSome (c : List α) (h : c ≠ []) : ∃ m, pyMax c = some m := by
  cases h2 : pyMax c with
  | none => exact absurd ((pyMax_eq_none c).mp h2) h
  | some m => exact ⟨m, rfl⟩

/-- With no positive force anywhere in the cut, the collection rule never
augments the capacity, so collecting feasibility coincides with plain
feasibility. -/
theorem feasibleCB_true_of_nonpos :
    ∀ (s : List ℕ) (cap : α) (cut : List α), (∀ x ∈ cut, x ≤ 0) →
      feasibleCB true cap cut s = feasibleB cap cut s := by
  intro s
  induction s with
  | nil => intro cap cut _; rfl
  | cons l s ih =>
    intro cap cut hnp
    simp only [feasibleCB, feasibleB]
    have hz : posForceSum (cut.take l) = 0 :=
      posForceSum_eq_zero _ (fun x hx => hnp x (List.mem_of_mem_take hx))
    rw [if_pos (by trivial), hz, add_zero]
    have hdrop : ∀ x ∈ cut.drop l, x ≤ 0 := fun x hx => hnp x (List.mem_of_mem_drop hx)
    have := ih cap (cut.drop l) hdrop
    simp only [feasibleB] at this
    rw [this, if_neg (by simp)]

theorem fastsplit_split_iff (cap : α) (cut : List α) (cn : Bool) (s : List ℕ)
    (hcap : 0 < cap) :
    fastsplit cap cut cn = .split s ↔ fastGo cut.length cap cut cn = some s := by
  unfold fastsplit
  rw [if_neg (not_le.mpr hcap)]
  cases h : fastGo cut.length cap cut cn with
  | none => simp
  | some s2 => simp

theorem smartsplit_split_iff (cap : α) (cut : List α) (mp : ℤ) (s : List ℕ)
    (hcap : 0 < cap) :
    smartsplit cap cut mp = .split s ↔ smartGo (cut.length + 1) cap cut mp = some s := by
  unfold smartsplit
  rw [if_neg (not_le.mpr hcap)]
  cases h : smartGo (cut.length + 1) cap cut mp with
  | none => simp
  | some s2 => simp

/-- Monotonicity of the dispatch policy: a feasible compute_split outcome
stays feasible when the head capacity and every member force increase
pointwise (the collection flag held fixed). -/
theorem dispatchSplit_mono (p p2 : α) (c c2 : List α) (cn : Bool) (s : List ℕ)
    (hp : p ≤ p2) (hf : List.Forall₂ (· ≤ ·) c c2)
    (h : dispatchSplit p c cn = some (.split s)) :
    ∃ s2, dispatchSplit p2 c2 cn = some (.split s2) := by
  have hlen : c.length = c2.length := hf.length_eq
  unfold dispatchSplit at h ⊢
  cases hm : pyMax c with
  | none =>
    rw [hm] at h
    exact Option.noConfusion h
  | some m =>
    rw [hm] at h
    injection h with h
    have hcne : c ≠ [] := fun hc => by
      rw [hc] at hm
      exact Option.noConfusion hm
    have hc2ne : c2 ≠ [] := fun hc => by
      rw [hc] at hlen
      simp at hlen
      exact hcne hlen
    obtain ⟨m2, hm2⟩ := pyMax_isSome c2 hc2ne
    rw [hm2]
    by_cases hbr : m ≤ 0 ∨ cn = true
    · -- source used fastsplit with collection
      rw [if_pos hbr] at h
      obtain ⟨hcap, hfeas⟩ := fastsplit_sound p c true s h
      have hcap2 : 0 < p2 := lt_of_lt_of_le hcap hp
      have hgo : fastGo c.length p c true = some s :=
        (fastsplit_split_iff p c true s hcap).mp h
      by_cases hbr2 : m2 ≤ 0 ∨ cn = true
      · -- target also fastsplit
        obtain ⟨s2, hs2⟩ :=
          fastGo_collect_mono c.length c le_rfl p 0 c2 p2 s hgo (Nat.zero_le _)
            (by simpa using hf) (by simpa [posForceSum] using hp)
        refine ⟨s2, ?_⟩
        show some (if m2 ≤ 0 ∨ cn = true then fastsplit p2 c2 true
          else smartsplit p2 c2 (c2.length : ℤ)) = some (SplitResult.split s2)
        rw [if_pos hbr2, (fastsplit_split_iff p2 c2 true s2 hcap2).mpr hs2]
      · -- target smartsplit: only possible with cn = false and all forces of c nonpositive
        have hbr2p := hbr2
        push_neg at hbr2p
        have hcn : cn = false := by
          cases cn
          · rfl
          · exact absurd rfl hbr2p.2
        have hm0 : m ≤ 0 := by
          rcases hbr with h1 | h1
          · exact h1
          · rw [h1] at hcn; exact absurd hcn (by simp)
        have hnp : ∀ x ∈ c, x ≤ 0 := fun x hx =>
          le_trans ((pyMax_spec c m hm).2 x hx) hm0
        have hfB : feasibleB p c s = true := by
          rw [← feasibleCB_true_of_nonpos s p c hnp]
          exact hfeas
        have hfB2 : feasibleB p2 c2 s = true := feasibleB_mono s p p2 c c2 hp hf hfB
        have hsum := feasibleCB_sum false s p c hfB
        have hpos := feasibleCB_all_pos false s p c hfB
        have hlens : s.length ≤ s.sum := length_le_sum_of_pos s hpos
        obtain ⟨s2, hs2, _⟩ := smartsplit_complete p2 c2 (c2.length : ℤ) s hcap2 hfB2
          (fun _ => by omega)
        refine ⟨s2, ?_⟩
        show some (if m2 ≤ 0 ∨ cn = true then fastsplit p2 c2 true
          else smartsplit p2 c2 (c2.length : ℤ)) = some (SplitResult.split s2)
        rw [if_neg hbr2, hs2]
    · -- source used smartsplit: cn = false and some positive force in c
      rw [if_neg hbr] at h
      push_neg at hbr
      obtain ⟨hcap, hfeas, _, hbud⟩ := smartsplit_sound p c (c.length : ℤ) s h
      have hcap2 : 0 < p2 := lt_of_lt_of_le hcap hp
      -- the maximum of c2 is positive as well
      have hm2pos : 0 < m2 := by
        have hmpos : 0 < m := hbr.1
        obtain ⟨n, hig⟩ := List.mem_iff_get.mp (pyMax_spec c m hm).1
        have hi2 : (n : ℕ) < c2.length := by omega
        have hle : c.get n ≤ c2.get ⟨n, hi2⟩ := by
          have hg := (List.forall₂_iff_get.mp hf).2
          have := hg n n.isLt hi2
          simpa using this
        have hmem2 : c2.get ⟨n, hi2⟩ ∈ c2 := List.get_mem c2 n hi2
        have hub := (pyMax_spec c2 m2 hm2).2 _ hmem2
        rw [hig] at hle
        linarith
      have hbr2 : ¬(m2 ≤ 0 ∨ cn = true) := by
        push_neg
        exact ⟨hm2pos, hbr.2⟩
      have hfB2 : feasibleB p2 c2 s = true := feasibleB_mono s p p2 c c2 hp hf hfeas
      have hsum := feasibleCB_sum false s p c hfeas
      have hpos := feasibleCB_all_pos false s p c hfeas
      have hlens : s.length ≤ s.sum := length_le_sum_of_pos s hpos
      obtain ⟨s2, hs2, _⟩ := smartsplit_complete p2 c2 (c2.length : ℤ) s hcap2 hfB2
        (fun _ => by omega)
      refine ⟨s2, ?_⟩
      show some (if m2 ≤ 0 ∨ cn = true then fastsplit p2 c2 true
        else smartsplit p2 c2 (c2.length : ℤ)) = some (SplitResult.split s2)
      rw [if_neg hbr2, hs2]

/-! ## Properties of the force model -/

theorem sqrt_grade_pos (g : ℝ) : 0 < Real.sqrt (g * g + 1) :=
  Real.sqrt_pos.mpr (by nlinarith [sq_nonneg g])

/-- On grades in `[0, 250]` the starting force of a nonnegative mass is
monotone in the grade.  (Above slope 250 = 1/μ the closed form actually
decreases, and for negative grades flattening the hill increases the
force; both directions outside this range are genuine.) -/
theorem startingForce_grade_mono (M g1 g2 : ℝ) (hM : 0 ≤ M)
    (h0 : 0 ≤ g1) (h12 : g1 ≤ g2) (h250 : g2 ≤ 250) :
    startingForceOfMass M g1 ≤ startingForceOfMass M g2 := by
  unfold startingForceOfMass
  have s1pos := sqrt_grade_pos g1
  have s2pos := sqrt_grade_pos g2
  rw [div_le_div_iff s1pos s2pos]
  have h2nn : 0 ≤ g2 := le_trans h0 h12
  have key : (g1 + 0.004) * Real.sqrt (g2 * g2 + 1)
      ≤ (g2 + 0.004) * Real.sqrt (g1 * g1 + 1) := by
    have hnn1 : 0 ≤ (g1 + 0.004) * Real.sqrt (g2 * g2 + 1) :=
      mul_nonneg (by norm_num; linarith) s2pos.le
    have hnn2 : 0 ≤ (g2 + 0.004) * Real.sqrt (g1 * g1 + 1) :=
      mul_nonneg (by norm_num; linarith) s1pos.le
    rw [← Real.sqrt_sq hnn1, ← Real.sqrt_sq hnn2]
    apply Real.sqrt_le_sqrt
    rw [mul_pow, mul_pow, Real.sq_sqrt (by nlinarith [sq_nonneg g1]),
      Real.sq_sqrt (by nlinarith [sq_nonneg g2])]
    nlinarith [mul_nonneg (sub_nonneg.2 h12) (sq_nonneg (g1 - g2)),
      mul_nonneg (sub_nonneg.2 h12) (mul_nonneg h0 (by linarith : (0:ℝ) ≤ 250 - g1)),
      mul_nonneg (sub_nonneg.2 h12) (mul_nonneg h2nn (by linarith : (0:ℝ) ≤ 250 - g2)),
      mul_nonneg (sub_nonneg.2 h12) (by linarith : (0:ℝ) ≤ 500 - (g1 + g2))]
  calc M * (g1 + 0.004) * Real.sqrt (g2 * g2 + 1)
      = M * ((g1 + 0.004) * Real.sqrt (g2 * g2 + 1)) := by ring
    _ ≤ M * ((g2 + 0.004) * Real.sqrt (g1 * g1 + 1)) :=
        mul_le_mul_of_nonneg_left key hM
    _ = M * (g2 + 0.004) * Real.sqrt (g1 * g1 + 1) := by ring

theorem net_force_capacity_mono_power (x : Stock) (g mp1 mp2 : ℝ)
    (hTE : 0 ≤ x.tractive_effort) (h : mp1 ≤ mp2) :
    net_force_capacity x g mp1 ≤ net_force_capacity x g mp2 := by
  unfold net_force_capacity
  have := mul_le_mul_of_nonneg_left h hTE
  linarith

theorem net_force_capacity_mono_grade (x : Stock) (g1 g2 mp : ℝ)
    (hM : 0 ≤ x.mass) (h0 : 0 ≤ g1) (h12 : g1 ≤ g2) (h250 : g2 ≤ 250) :
    net_force_capacity x g2 mp ≤ net_force_capacity x g1 mp := by
  unfold net_force_capacity Stock.starting_force
  have := startingForce_grade_mono x.mass g1 g2 hM h0 h12 h250
  linarith

theorem forall₂_map_le {β : Type*} (f g : β → α) :
    ∀ (l : List β), (∀ x ∈ l, f x ≤ g x) →
      List.Forall₂ (· ≤ ·) (l.map f) (l.map g) := by
  intro l
  induction l with
  | nil => intro _; constructor
  | cons x xs ih =>
    intro h
    exact List.Forall₂.cons (h x (by simp))
      (ih fun y hy => h y (List.mem_cons_of_mem _ hy))

/-! ## Properties of split materialization -/

theorem split_to_subcuts_shift : ∀ (split : List ℕ) (cut : Train) (a : ℕ),
    ((accumFrom a split).zipWith (fun e l => (e - l, e)) split).map
        (fun se => (cut.drop se.1).take (se.2 - se.1))
      = ((accumFrom 0 split).zipWith (fun e l => (e - l, e)) split).map
          (fun se => ((cut.drop a).drop se.1).take (se.2 - se.1)) := by
  intro split
  induction split with
  | nil => intro cut a; rfl
  | cons l rest ih =>
    intro cut a
    simp only [accumFrom, List.zipWith_cons_cons, List.map_cons, zero_add]
    congr 1
    · simp only [Nat.add_sub_cancel, Nat.add_sub_cancel_left, Nat.sub_self,
        Nat.sub_zero, List.drop_zero]
    · rw [ih cut (a + l), ih (cut.drop a) l, List.drop_drop]

theorem split_to_subcuts_nil (cut : Train) : split_to_subcuts cut [] = [] := rfl

theorem split_to_subcuts_cons (cut : Train) (l : ℕ) (rest : List ℕ) :
    split_to_subcuts cut (l :: rest) = cut.take l :: split_to_subcuts (cut.drop l) rest := by
  unfold split_to_subcuts split_to_slices
  simp only [accumFrom, zero_add, List.zipWith_cons_cons, List.map_cons]
  congr 1
  · simp [Nat.sub_self]
  · exact split_to_subcuts_shift rest cut l

theorem accumFrom_length : ∀ (split : List ℕ) (a : ℕ),
    (accumFrom a split).length = split.length := by
  intro split
  induction split with
  | nil => intro a; rfl
  | cons x xs ih => intro a; simp only [accumFrom, List.length_cons, ih]

theorem split_to_subcuts_length (cut : Train) (split : List ℕ) :
    (split_to_subcuts cut split).length = split.length := by
  unfold split_to_subcuts split_to_slices
  simp [List.length_zipWith, accumFrom_length]

theorem trainTE_append (a b : Train) : trainTE (a ++ b) = trainTE a + trainTE b := by
  simp [trainTE, List.sum_append]

theorem trainMass_append (a b : Train) : trainMass (a ++ b) = trainMass a + trainMass b := by
  simp [trainMass, List.sum_append]

theorem trainTE_join : ∀ (L : List Train), trainTE L.flatten = (L.map trainTE).sum := by
  intro L
  induction L with
  | nil => rfl
  | cons t ts ih => simp [List.flatten, trainTE_append, ih]

theorem trainMass_join : ∀ (L : List Train), trainMass L.flatten = (L.map trainMass).sum := by
  intro L
  induction L with
  | nil => rfl
  | cons t ts ih => simp [List.flatten, trainMass_append, ih]

theorem zipWith_scanl_trips : ∀ (sc : List Train) (power : Train) (i : ℕ),
    i < sc.length →
    (List.zipWith (· ++ ·) (sc.scanl (· ++ ·) power) sc)[i]?
      = some ((power ++ ((sc.take i).flatten)) ++ sc[i]?.getD []) := by
  intro sc
  induction sc with
  | nil => intro power i h; simp at h
  | cons t ts ih =>
    intro power i h
    rw [List.scanl_cons]
    cases i with
    | zero => simp
    | succ j =>
      simp only [List.length_cons] at h
      simp only [List.singleton_append, List.zipWith_cons_cons, List.getElem?_cons_succ]
      rw [ih (power ++ t) j (by omega)]
      simp [List.take_succ_cons, List.flatten_cons, List.append_assoc]

theorem zipWith_replicate_trips : ∀ (sc : List Train) (power : Train) (i : ℕ),
    i < sc.length →
    (List.zipWith (· ++ ·) (List.replicate sc.length power) sc)[i]?
      = some (power ++ sc[i]?.getD []) := by
  intro sc
  induction sc with
  | nil => intro power i h; simp at h
  | cons t ts ih =>
    intro power i h
    cases i with
    | zero => simp [List.replicate]
    | succ j =>
      simp only [List.length_cons] at h
      have := ih power j (by omega)
      simp only [List.length_cons, List.replicate, List.zipWith_cons_cons,
        List.getElem?_cons_succ]
      exact this

/-! ## The claims -/

/-- Claim C1: for every positive capacity, cut and max_parts, if some
partition of the cut into at most max_parts contiguous subcuts is feasible
(each subcut's capacity plus the sum of its forces strictly positive, with
no replenishment between subcuts), then smartsplit returns a feasible split
whose part count is the minimum over all feasible splits within max_parts
— despite the tail-shrinking skip — and in particular at most the part
count of any split fastsplit returns without net collection. -/
theorem C1_smartsplit_optimal (cap : α) (cut : List α) (mp : ℤ)
    (hcap : 0 < cap)
    (hex : ∃ t, feasibleB cap cut t = true ∧ (t.length : ℤ) ≤ mp) :
    ∃ s, smartsplit cap cut mp = .split s ∧ feasibleB cap cut s = true ∧
      (s.length : ℤ) ≤ mp ∧
      (∀ t, feasibleB cap cut t = true → (t.length : ℤ) ≤ mp →
        s.length ≤ t.length) ∧
      (∀ sf, fastsplit cap cut false = .split sf → s.length ≤ sf.length) := by
  obtain ⟨t0, ht0, hb0⟩ := hex
  obtain ⟨s, hs, _⟩ := smartsplit_complete cap cut mp t0 hcap ht0 (fun _ => hb0)
  obtain ⟨_, hfeas, hnil, hbud⟩ := smartsplit_sound cap cut mp s hs
  have hmin : ∀ t, feasibleB cap cut t = true → (t.length : ℤ) ≤ mp →
      s.length ≤ t.length := by
    intro t htf htb
    obtain ⟨s2, hs2, hsl2⟩ := smartsplit_complete cap cut mp t hcap htf (fun _ => htb)
    rw [hs] at hs2
    injection hs2 with h2
    rw [h2]
    exact hsl2
  have hsmp : (s.length : ℤ) ≤ mp := by
    by_cases hc : cut = []
    · subst hc
      have hs0 := hnil rfl
      subst hs0
      have ht00 : t0 = [] := (feasibleB_nil cap t0).mp ht0
      subst ht00
      simpa using hb0
    · exact hbud hc
  refine ⟨s, hs, hfeas, hsmp, hmin, ?_⟩
  intro sf hsf
  obtain ⟨_, hfsf⟩ := fastsplit_sound cap cut false sf hsf
  have hfB : feasibleB cap cut sf = true := hfsf
  by_cases hcase : (sf.length : ℤ) ≤ mp
  · exact hmin sf hfB hcase
  · push_neg at hcase
    omega

/-- Witness for C1 at a concrete input: capacity 10, cut (-3, -3, -3, -3),
max_parts 4 (the split (3, 1) is feasible within the budget). -/
theorem C1_witness :
    ∃ s, smartsplit (10 : ℤ) [-3, -3, -3, -3] 4 = .split s ∧
      feasibleB (10 : ℤ) [-3, -3, -3, -3] s = true ∧
      (s.length : ℤ) ≤ 4 ∧
      (∀ t, feasibleB (10 : ℤ) [-3, -3, -3, -3] t = true → (t.length : ℤ) ≤ 4 →
        s.length ≤ t.length) ∧
      (∀ sf, fastsplit (10 : ℤ) [-3, -3, -3, -3] false = .split sf →
        s.length ≤ sf.length) :=
  C1_smartsplit_optimal 10 [-3, -3, -3, -3] 4 (by decide) ⟨[3, 1], by decide⟩

/-- Claim C2: any split returned by fastsplit or smartsplit is a sequence
of positive integers summing to the cut length, and every subcut it induces
has strictly positive net force, with the running capacity augmented per
the collection rule when collect_net is set for fastsplit and never
augmented for smartsplit. -/
theorem C2_split_wellformed (cap : α) (cut : List α) (cn : Bool) (mp : ℤ) :
    (∀ s, fastsplit cap cut cn = .split s →
      (∀ l ∈ s, 0 < l) ∧ s.sum = cut.length ∧ feasibleCB cn cap cut s = true) ∧
    (∀ s, smartsplit cap cut mp = .split s →
      (∀ l ∈ s, 0 < l) ∧ s.sum = cut.length ∧ feasibleB cap cut s = true) := by
  constructor
  · intro s h
    obtain ⟨_, hf⟩ := fastsplit_sound cap cut cn s h
    exact ⟨feasibleCB_all_pos cn s cap cut hf, feasibleCB_sum cn s cap cut hf, hf⟩
  · intro s h
    obtain ⟨_, hf, _, _⟩ := smartsplit_sound cap cut mp s h
    exact ⟨feasibleCB_all_pos false s cap cut hf, feasibleCB_sum false s cap cut hf, hf⟩

/-- Witness for C2 at a concrete input where both splitters succeed. -/
theorem C2_witness :
    ((∀ l ∈ ([3, 1] : List ℕ), 0 < l) ∧
      ([3, 1] : List ℕ).sum = ([-3, -3, -3, -3] : List ℤ).length ∧
      feasibleCB false (10 : ℤ) [-3, -3, -3, -3] [3, 1] = true) ∧
    ((∀ l ∈ ([3, 1] : List ℕ), 0 < l) ∧
      ([3, 1] : List ℕ).sum = ([-3, -3, -3, -3] : List ℤ).length ∧
      feasibleB (10 : ℤ) [-3, -3, -3, -3] [3, 1] = true) :=
  ⟨(C2_split_wellformed (10 : ℤ) [-3, -3, -3, -3] false 4).1 [3, 1] (by decide),
   (C2_split_wellformed (10 : ℤ) [-3, -3, -3, -3] false 4).2 [3, 1] (by decide)⟩

/-- Claim C3: fastsplit records as each subcut the largest prefix length of
the remaining cut (searching from the remaining length down to 1) whose
capacity plus prefix-force sum is positive, augments capacity by the sum of
the strictly positive forces in that prefix exactly when collect_net is
set, advances past the prefix, and returns the infeasible marker as soon as
no prefix of any length is feasible; in particular
fastsplit(10, (-3, -3, -3, -3)) with no collection returns (3, 1). -/
theorem C3_fastsplit_greedy (cap : α) (cut : List α) (cn : Bool)
    (hcap : 0 < cap) (hcut : cut ≠ []) :
    ((∀ l, 1 ≤ l → l ≤ cut.length → cap + (cut.take l).sum ≤ 0) →
        fastsplit cap cut cn = .infeasible) ∧
    (∀ l0, 1 ≤ l0 → l0 ≤ cut.length → 0 < cap + (cut.take l0).sum →
      ∃ lmax, l0 ≤ lmax ∧ lmax ≤ cut.length ∧ 0 < cap + (cut.take lmax).sum ∧
        (∀ l2, lmax < l2 → l2 ≤ cut.length → cap + (cut.take l2).sum ≤ 0) ∧
        fastsplit cap cut cn
          = consSplit lmax
              (fastsplit (if cn then cap + posForceSum (cut.take lmax) else cap)
                (cut.drop lmax) cn)) ∧
    fastsplit (10 : ℤ) [-3, -3, -3, -3] false = .split [3, 1] := by
  refine ⟨fastsplit_fail cap cut cn hcap hcut, ?_, by decide⟩
  intro l0 h1 h2 h3
  exact fastsplit_step cap cut cn hcap l0 h1 h2 h3

/-- Witness for C3 at a concrete input. -/
theorem C3_witness :
    ((∀ l, 1 ≤ l → l ≤ ([(-3 : ℤ), -3, -3, -3] : List ℤ).length →
        (10 : ℤ) + (([(-3 : ℤ), -3, -3, -3]).take l).sum ≤ 0) →
        fastsplit (10 : ℤ) [-3, -3, -3, -3] false = .infeasible) ∧
    (∀ l0, 1 ≤ l0 → l0 ≤ ([(-3 : ℤ), -3, -3, -3] : List ℤ).length →
      0 < (10 : ℤ) + (([(-3 : ℤ), -3, -3, -3]).take l0).sum →
      ∃ lmax, l0 ≤ lmax ∧ lmax ≤ ([(-3 : ℤ), -3, -3, -3] : List ℤ).length ∧
        0 < (10 : ℤ) + (([(-3 : ℤ), -3, -3, -3]).take lmax).sum ∧
        (∀ l2, lmax < l2 → l2 ≤ ([(-3 : ℤ), -3, -3, -3] : List ℤ).length →
          (10 : ℤ) + (([(-3 : ℤ), -3, -3, -3]).take l2).sum ≤ 0) ∧
        fastsplit (10 : ℤ) [-3, -3, -3, -3] false
          = consSplit lmax
              (fastsplit
                (if false then
                  (10 : ℤ) + posForceSum (([(-3 : ℤ), -3, -3, -3]).take lmax)
                 else (10 : ℤ))
                (([(-3 : ℤ), -3, -3, -3]).drop lmax) false)) ∧
    fastsplit (10 : ℤ) [-3, -3, -3, -3] false = .split [3, 1] :=
  C3_fastsplit_greedy (10 : ℤ) [-3, -3, -3, -3] false (by decide) (by decide)

/-- Claim C4: for positive capacity, smartsplit's base cases: an empty cut
returns the empty split; a non-empty cut with max_parts ≤ 0 is infeasible;
a non-empty cut with max_parts = 1 returns the single-part split exactly
when capacity plus the total force is positive. -/
theorem C4_smartsplit_base (cap : α) (cut : List α) (mp : ℤ) (hcap : 0 < cap) :
    smartsplit cap ([] : List α) mp = .split [] ∧
    (cut ≠ [] → mp ≤ 0 → smartsplit cap cut mp = .infeasible) ∧
    (cut ≠ [] → mp = 1 →
      smartsplit cap cut mp
        = if 0 < cap + cut.sum then .split [cut.length] else .infeasible) := by
  refine ⟨?_, ?_, ?_⟩
  · unfold smartsplit
    rw [if_neg (not_le.mpr hcap)]
    rfl
  · intro hcut hmp
    unfold smartsplit
    rw [if_neg (not_le.mpr hcap)]
    have hgo : smartGo (cut.length + 1) cap cut mp = none := by
      simp only [smartGo]
      rw [if_neg (fun h => hcut (List.length_eq_zero.mp h)), if_pos hmp]
    rw [hgo]
  · intro hcut hmp
    unfold smartsplit
    rw [if_neg (not_le.mpr hcap)]
    have hgo : smartGo (cut.length + 1) cap cut mp
        = if 0 < cap + cut.sum then some [cut.length] else none := by
      simp only [smartGo]
      rw [if_neg (fun h => hcut (List.length_eq_zero.mp h)),
        if_neg (by omega : ¬mp ≤ 0), if_pos hmp]
    rw [hgo]
    by_cases hsum : 0 < cap + cut.sum
    · rw [if_pos hsum, if_pos hsum]
    · rw [if_neg hsum, if_neg hsum]

/-- Witness for C4 at a concrete input. -/
theorem C4_witness :
    smartsplit (5 : ℤ) ([] : List ℤ) 1 = .split [] ∧
    (([2] : List ℤ) ≠ [] → (1 : ℤ) ≤ 0 → smartsplit (5 : ℤ) [2] 1 = .infeasible) ∧
    (([2] : List ℤ) ≠ [] → (1 : ℤ) = 1 →
      smartsplit (5 : ℤ) [2] 1
        = if 0 < (5 : ℤ) + ([2] : List ℤ).sum then .split [([2] : List ℤ).length]
          else .infeasible) :=
  C4_smartsplit_base (5 : ℤ) [2] 1 (by decide)

/-- Claim C9: a non-positive capacity is rejected immediately by both
splitters with an assertion failure, before any split or infeasible marker
is produced. -/
theorem C9_assert_capacity (cap : α) (cut : List α) (cn : Bool) (mp : ℤ)
    (hcap : cap ≤ 0) :
    fastsplit cap cut cn = .assertError ∧ smartsplit cap cut mp = .assertError := by
  unfold fastsplit smartsplit
  rw [if_pos hcap, if_pos hcap]
  exact ⟨rfl, rfl⟩

/-- Witness for C9 at capacity 0. -/
theorem C9_witness :
    fastsplit (0 : ℤ) [5] true = .assertError ∧
    smartsplit (0 : ℤ) [5] 3 = .assertError :=
  C9_assert_capacity (0 : ℤ) [5] true 3 (by decide)

/-- Claim C10: compute_split applied to an empty cut raises (Python's
`max` of an empty sequence), modelled as `none`, and never returns a
split, even though fastsplit and smartsplit each return the empty split
when handed an empty cut directly (with positive capacity). -/
theorem C10_empty_cut (power : Stock) (grade mpw : ℝ) (cn : Bool)
    (cap : α) (mp : ℤ) (hcap : 0 < cap) :
    compute_split power [] grade mpw cn = none ∧
    fastsplit cap ([] : List α) cn = .split [] ∧
    smartsplit cap ([] : List α) mp = .split [] := by
  refine ⟨rfl, ?_, ?_⟩
  · unfold fastsplit
    rw [if_neg (not_le.mpr hcap)]
    rfl
  · unfold smartsplit
    rw [if_neg (not_le.mpr hcap)]
    rfl

/-- Witness for C10 at concrete inputs. -/
theorem C10_witness :
    compute_split ⟨1, 1⟩ [] 0 1 false = none ∧
    fastsplit (1 : ℤ) ([] : List ℤ) false = .split [] ∧
    smartsplit (1 : ℤ) ([] : List ℤ) (-7) = .split [] :=
  C10_empty_cut ⟨1, 1⟩ 0 1 false (1 : ℤ) (-7) (by decide)

/-- Claim C5: compute_split computes the head capacity and per-member
forces via net_force_capacity and then dispatches: fastsplit with
collection forced on when every member force is non-positive or when
collect_net was requested, otherwise smartsplit with max_parts equal to
the number of units in the cut. -/
theorem C5_dispatch (power : Stock) (cut : Train) (grade mpw : ℝ) (cn : Bool)
    (hcut : cut ≠ []) :
    ((∀ x ∈ cut, net_force_capacity x grade mpw ≤ 0) ∨ cn = true →
      compute_split power cut grade mpw cn
        = some (fastsplit (net_force_capacity power grade mpw)
            (cut.map fun x => net_force_capacity x grade mpw) true)) ∧
    ((∃ x ∈ cut, 0 < net_force_capacity x grade mpw) ∧ cn = false →
      compute_split power cut grade mpw cn
        = some (smartsplit (net_force_capacity power grade mpw)
            (cut.map fun x => net_force_capacity x grade mpw) (cut.length : ℤ))) := by
  have hcne : (cut.map fun x => net_force_capacity x grade mpw) ≠ [] := by
    simpa using hcut
  obtain ⟨m, hm⟩ := pyMax_isSome _ hcne
  have hspec := pyMax_spec _ m hm
  constructor
  · intro hcase
    unfold compute_split dispatchSplit
    rw [hm]
    show some (if m ≤ 0 ∨ cn = true then _ else _) = _
    rw [if_pos ?_]
    rcases hcase with hall | hcn
    · left
      obtain ⟨x, hx, hxm⟩ := List.mem_map.mp hspec.1
      rw [← hxm]
      exact hall x hx
    · right
      exact hcn
  · rintro ⟨⟨x, hx, hxpos⟩, hcn⟩
    unfold compute_split dispatchSplit
    rw [hm]
    show some (if m ≤ 0 ∨ cn = true then _ else _) = _
    rw [if_neg ?_, List.length_map]
    push_neg
    refine ⟨?_, by simp [hcn]⟩
    have hmem : net_force_capacity x grade mpw
        ∈ cut.map fun x => net_force_capacity x grade mpw :=
      List.mem_map.mpr ⟨x, hx, rfl⟩
    have := hspec.2 _ hmem
    linarith

/-- Witness for C5: a one-car cut with collect_net requested goes to
fastsplit with collection forced on. -/
theorem C5_witness :
    ((∀ x ∈ ([⟨1, 0⟩] : Train), net_force_capacity x 0 1 ≤ 0) ∨ true = true →
      compute_split ⟨1, 1⟩ [⟨1, 0⟩] 0 1 true
        = some (fastsplit (net_force_capacity ⟨1, 1⟩ 0 1)
            (([⟨1, 0⟩] : Train).map fun x => net_force_capacity x 0 1) true)) ∧
    ((∃ x ∈ ([⟨1, 0⟩] : Train), 0 < net_force_capacity x 0 1) ∧ true = false →
      compute_split ⟨1, 1⟩ [⟨1, 0⟩] 0 1 true
        = some (smartsplit (net_force_capacity ⟨1, 1⟩ 0 1)
            (([⟨1, 0⟩] : Train).map fun x => net_force_capacity x 0 1)
            (([⟨1, 0⟩] : Train).length : ℤ))) :=
  C5_dispatch ⟨1, 1⟩ [⟨1, 0⟩] 0 1 true (by simp)

/-- Claim C6: split_to_trips pairs each subcut with a power assignment:
by default every trip uses the original power; with forward collection the
i-th trip's power is the original power followed by all strictly-prior
subcuts, so its aggregate tractive effort and mass equal the original
power's plus the sums over the prior subcuts. -/
theorem C6_trips (power cut : Train) (split : List ℕ) (i : ℕ)
    (h : i < (split_to_subcuts cut split).length) :
    (split_to_trips power cut split false)[i]?
      = some (power ++ (split_to_subcuts cut split)[i]?.getD []) ∧
    (split_to_trips power cut split true)[i]?
      = some ((power ++ ((split_to_subcuts cut split).take i).flatten)
          ++ (split_to_subcuts cut split)[i]?.getD []) ∧
    trainTE (power ++ ((split_to_subcuts cut split).take i).flatten)
      = trainTE power
        + (((split_to_subcuts cut split).take i).map trainTE).sum ∧
    trainMass (power ++ ((split_to_subcuts cut split).take i).flatten)
      = trainMass power
        + (((split_to_subcuts cut split).take i).map trainMass).sum := by
  have hmap : (split_to_subcuts cut split).map tractive_units
      = split_to_subcuts cut split := List.map_id' _
  refine ⟨?_, ?_, ?_, ?_⟩
  · unfold split_to_trips
    rw [if_neg (by simp)]
    exact zipWith_replicate_trips _ power i h
  · unfold split_to_trips
    rw [if_pos rfl, hmap]
    exact zipWith_scanl_trips _ power i h
  · rw [trainTE_append, trainTE_join]
  · rw [trainMass_append, trainMass_join]

/-- Witness for C6 on a two-car cut split into two singleton subcuts. -/
theorem C6_witness :
    (split_to_trips [⟨1, 1⟩] [⟨2, 0⟩, ⟨3, 0⟩] [1, 1] false)[1]?
      = some ([⟨1, 1⟩] ++ (split_to_subcuts [⟨2, 0⟩, ⟨3, 0⟩] [1, 1])[1]?.getD []) ∧
    (split_to_trips [⟨1, 1⟩] [⟨2, 0⟩, ⟨3, 0⟩] [1, 1] true)[1]?
      = some (([⟨1, 1⟩] ++ ((split_to_subcuts [⟨2, 0⟩, ⟨3, 0⟩] [1, 1]).take 1).flatten)
          ++ (split_to_subcuts [⟨2, 0⟩, ⟨3, 0⟩] [1, 1])[1]?.getD []) ∧
    trainTE ([⟨1, 1⟩] ++ ((split_to_subcuts [⟨2, 0⟩, ⟨3, 0⟩] [1, 1]).take 1).flatten)
      = trainTE [⟨1, 1⟩]
        + (((split_to_subcuts [⟨2, 0⟩, ⟨3, 0⟩] [1, 1]).take 1).map trainTE).sum ∧
    trainMass ([⟨1, 1⟩] ++ ((split_to_subcuts [⟨2, 0⟩, ⟨3, 0⟩] [1, 1]).take 1).flatten)
      = trainMass [⟨1, 1⟩]
        + (((split_to_subcuts [⟨2, 0⟩, ⟨3, 0⟩] [1, 1]).take 1).map trainMass).sum :=
  C6_trips [⟨1, 1⟩] [⟨2, 0⟩, ⟨3, 0⟩] [1, 1] 1
    (by simp [split_to_subcuts_length])

/-- Counterexample to claim C8 as stated: the degenerate force-model
computations do not produce non-finite values the caller can test — they
fail outright (Python raises ZeroDivisionError or ValueError, modelled as
`none`): starting_power of a train with zero total tractive effort,
maximum_grade when tractive effort equals mass, and maximum_grade with a
negative discriminant all yield no value at all. -/
theorem C8_counterexample :
    Train.starting_power [⟨1, 0⟩] 0 = none ∧
    Train.maximum_grade [⟨1, 1⟩] = none ∧
    Train.maximum_grade [⟨0, 1⟩] = none := by
  refine ⟨?_, ?_, ?_⟩
  · unfold Train.starting_power
    rw [if_pos]
    simp [trainTE]
  · unfold Train.maximum_grade
    norm_num [trainTE, trainMass]
  · unfold Train.maximum_grade
    norm_num [trainTE, trainMass]

/-- Claim C8 amended: the degenerate force-model computations fail by
raising an exception that the caller observes (ZeroDivisionError for a zero
denominator, ValueError for a negative discriminant — modelled as `none`),
rather than returning non-finite values: starting_power fails exactly when
the total tractive effort is zero, and maximum_grade fails exactly when the
discriminant mass² · (0.004² + 1) − tractive_effort² is negative or
tractive_effort² − mass² is zero. -/
theorem C8_amended (t : Train) (grade : ℝ) :
    (Train.starting_power t grade = none ↔ trainTE t = 0) ∧
    (Train.maximum_grade t = none ↔
      (trainMass t ^ 2 * ((0.004 : ℝ) ^ 2 + 1) - trainTE t ^ 2 < 0 ∨
        trainTE t ^ 2 - trainMass t ^ 2 = 0)) := by
  constructor
  · unfold Train.starting_power
    split
    next h => simp [h]
    next h => simp [h]
  · unfold Train.maximum_grade
    simp only []
    split
    next h => simp [h]
    next h =>
      split
      next h2 => simp [h, h2]
      next h2 => simp [h, h2]

/-! ## Closed-form evaluation on one-car cuts (for concrete instances) -/

theorem smartsplit_one (cap : α) (cut : List α) (mp : ℤ) (hcap : 0 < cap)
    (hcut : cut ≠ []) (hmp : mp = 1) :
    smartsplit cap cut mp
      = if 0 < cap + cut.sum then .split [cut.length] else .infeasible := by
  unfold smartsplit
  rw [if_neg (not_le.mpr hcap)]
  have hgo : smartGo (cut.length + 1) cap cut mp
      = if 0 < cap + cut.sum then some [cut.length] else none := by
    simp only [smartGo]
    rw [if_neg (fun h => hcut (List.length_eq_zero.mp h)),
      if_neg (by omega : ¬mp ≤ 0), if_pos hmp]
  rw [hgo]
  by_cases h : 0 < cap + cut.sum
  · rw [if_pos h, if_pos h]
  · rw [if_neg h, if_neg h]

theorem smartsplit_single (p c : α) (hp : 0 < p) :
    smartsplit p [c] 1 = if 0 < p + c then .split [1] else .infeasible := by
  rw [smartsplit_one p [c] 1 hp (by simp) rfl]
  simp

theorem fastsplit_single (p c : α) (cn : Bool) (hp : 0 < p) :
    fastsplit p [c] cn = if 0 < p + c then .split [1] else .infeasible := by
  unfold fastsplit
  rw [if_neg (not_le.mpr hp)]
  by_cases h : 0 < p + c
  · have hfind : fastFind p [c] 1 = some 1 := by
      simp only [fastFind]
      rw [if_pos (by simpa using h)]
    have hgo : fastGo ([c] : List α).length p [c] cn = some [1] := by
      show (match fastFind p [c] ([c] : List α).length with
        | none => none
        | some l =>
          match fastGo 0 (if cn = true then p + posForceSum (([c] : List α).take l) else p)
              (([c] : List α).drop l) cn with
          | none => none
          | some rest => some (l :: rest)) = some [1]
      rw [show ([c] : List α).length = 1 from rfl, hfind]
      rfl
    rw [hgo, if_pos h]
  · have hfind : fastFind p [c] 1 = none := by
      simp only [fastFind]
      rw [if_neg (by simpa using h)]
    have hgo : fastGo ([c] : List α).length p [c] cn = none := by
      show (match fastFind p [c] ([c] : List α).length with
        | none => none
        | some l =>
          match fastGo 0 (if cn = true then p + posForceSum (([c] : List α).take l) else p)
              (([c] : List α).drop l) cn with
          | none => none
          | some rest => some (l :: rest)) = none
      rw [show ([c] : List α).length = 1 from rfl, hfind]
    rw [hgo, if_neg h]

theorem dispatchSplit_single (p c : α) (cn : Bool) :
    dispatchSplit p [c] cn
      = some (if c ≤ 0 ∨ cn = true then fastsplit p [c] true
          else smartsplit p [c] 1) := by
  unfold dispatchSplit
  rfl

theorem compute_split_single (power x : Stock) (g mpw : ℝ) (cn : Bool) :
    compute_split power [x] g mpw cn
      = some (if net_force_capacity x g mpw ≤ 0 ∨ cn = true
          then fastsplit (net_force_capacity power g mpw)
            [net_force_capacity x g mpw] true
          else smartsplit (net_force_capacity power g mpw)
            [net_force_capacity x g mpw] 1) := by
  unfold compute_split
  rw [List.map_cons, List.map_nil]
  exact dispatchSplit_single _ _ cn

/-! ## Concrete force-model evaluations at sqrt-friendly grades -/

theorem sqrt_eval_neg34 : Real.sqrt ((-3 / 4 : ℝ) * (-3 / 4) + 1) = 5 / 4 := by
  rw [show ((-3 / 4 : ℝ) * (-3 / 4) + 1) = (5 / 4 : ℝ) ^ 2 by norm_num]
  exact Real.sqrt_sq (by norm_num)

theorem sqrt_eval_zero : Real.sqrt ((0 : ℝ) * 0 + 1) = 1 := by
  rw [show ((0 : ℝ) * 0 + 1) = 1 by norm_num]
  exact Real.sqrt_one

theorem sqrt_eval_pos34 : Real.sqrt ((3 / 4 : ℝ) * (3 / 4) + 1) = 5 / 4 := by
  rw [show ((3 / 4 : ℝ) * (3 / 4) + 1) = (5 / 4 : ℝ) ^ 2 by norm_num]
  exact Real.sqrt_sq (by norm_num)

theorem sqrt_eval_hi1 :
    Real.sqrt ((125500 / 501 : ℝ) * (125500 / 501) + 1) = 125501 / 501 := by
  rw [show ((125500 / 501 : ℝ) * (125500 / 501) + 1) = (125501 / 501 : ℝ) ^ 2 by norm_num]
  exact Real.sqrt_sq (by norm_num)

theorem sqrt_eval_hi2 :
    Real.sqrt ((249999 / 1000 : ℝ) * (249999 / 1000) + 1) = 250001 / 1000 := by
  rw [show ((249999 / 1000 : ℝ) * (249999 / 1000) + 1)
      = (250001 / 1000 : ℝ) ^ 2 by norm_num]
  exact Real.sqrt_sq (by norm_num)

theorem nfc_pow_neg34 : net_force_capacity ⟨1, 1⟩ (-3 / 4) 1 = 998 / 625 := by
  unfold net_force_capacity Stock.starting_force startingForceOfMass
  rw [sqrt_eval_neg34]
  norm_num

theorem nfc_car_neg34 : net_force_capacity ⟨1000, 0⟩ (-3 / 4) 1 = 2984 / 5 := by
  unfold net_force_capacity Stock.starting_force startingForceOfMass
  rw [sqrt_eval_neg34]
  norm_num

theorem nfc_pow_zero : net_force_capacity ⟨1, 1⟩ 0 1 = 249 / 250 := by
  unfold net_force_capacity Stock.starting_force startingForceOfMass
  rw [sqrt_eval_zero]
  norm_num

theorem nfc_car_zero : net_force_capacity ⟨1000, 0⟩ 0 1 = -4 := by
  unfold net_force_capacity Stock.starting_force startingForceOfMass
  rw [sqrt_eval_zero]
  norm_num

theorem nfc_pow_hi1 :
    net_force_capacity ⟨1, 7843906625750⟩ (125500 / 501) 1
      = 7843906625750 - 31375501 / 31375250 := by
  unfold net_force_capacity Stock.starting_force startingForceOfMass
  rw [sqrt_eval_hi1]
  norm_num

theorem nfc_car_hi1 :
    net_force_capacity ⟨7843843875249, 0⟩ (125500 / 501) 1
      = -(7843843875249 * 31375501 / 31375250) := by
  unfold net_force_capacity Stock.starting_force startingForceOfMass
  rw [sqrt_eval_hi1]
  norm_num

theorem nfc_pow_hi2 :
    net_force_capacity ⟨1, 7843906625750⟩ (249999 / 1000) 1
      = 7843906625750 - 250003 / 250001 := by
  unfold net_force_capacity Stock.starting_force startingForceOfMass
  rw [sqrt_eval_hi2]
  norm_num

theorem nfc_car_hi2 :
    net_force_capacity ⟨7843843875249, 0⟩ (249999 / 1000) 1
      = -(7843843875249 * 250003 / 250001) := by
  unfold net_force_capacity Stock.starting_force startingForceOfMass
  rw [sqrt_eval_hi2]
  norm_num

/-- Counterexample to claim C7 as stated: decreasing the magnitude of the
grade can turn a feasible compute_split infeasible.  First instance: a
downhill grade -3/4 is feasible but the flat grade 0 (smaller magnitude) is
not.  Second instance: on the far side of the starting-force peak at slope
250, grade 125500/501 (≈ 250.5) is feasible but the smaller grade
249999/1000 (≈ 250.0) is not. -/
theorem C7_counterexample :
    (compute_split ⟨1, 1⟩ [⟨1000, 0⟩] (-3 / 4) 1 false = some (.split [1]) ∧
      compute_split ⟨1, 1⟩ [⟨1000, 0⟩] 0 1 false = some .infeasible ∧
      |(0 : ℝ)| < |(-3 / 4 : ℝ)|) ∧
    (compute_split ⟨1, 7843906625750⟩ [⟨7843843875249, 0⟩] (125500 / 501) 1 false
        = some (.split [1]) ∧
      compute_split ⟨1, 7843906625750⟩ [⟨7843843875249, 0⟩] (249999 / 1000) 1 false
        = some .infeasible ∧
      |(249999 / 1000 : ℝ)| < |(125500 / 501 : ℝ)|) := by
  refine ⟨⟨?_, ?_, ?_⟩, ⟨?_, ?_, ?_⟩⟩
  · rw [compute_split_single, nfc_pow_neg34, nfc_car_neg34,
      if_neg (by simp only [Bool.false_eq_true, or_false]; norm_num),
      smartsplit_single _ _ (by norm_num), if_pos (by norm_num)]
  · rw [compute_split_single, nfc_pow_zero, nfc_car_zero,
      if_pos (Or.inl (by norm_num)),
      fastsplit_single _ _ _ (by norm_num), if_neg (by norm_num)]
  · rw [abs_of_nonneg (by norm_num : (0:ℝ) ≤ 0), abs_of_nonpos (by norm_num)]
    norm_num
  · rw [compute_split_single, nfc_pow_hi1, nfc_car_hi1,
      if_pos (Or.inl (by norm_num)),
      fastsplit_single _ _ _ (by norm_num), if_pos (by norm_num)]
  · rw [compute_split_single, nfc_pow_hi2, nfc_car_hi2,
      if_pos (Or.inl (by norm_num)),
      fastsplit_single _ _ _ (by norm_num), if_neg (by norm_num)]
  · rw [abs_of_nonneg (by norm_num : (0:ℝ) ≤ 249999 / 1000),
      abs_of_nonneg (by norm_num : (0:ℝ) ≤ 125500 / 501)]
    norm_num

theorem nfc_pow_w34 : net_force_capacity ⟨1, 5⟩ (3 / 4) 1 = 2748 / 625 := by
  unfold net_force_capacity Stock.starting_force startingForceOfMass
  rw [sqrt_eval_pos34]
  norm_num

theorem nfc_car_w34 : net_force_capacity ⟨1, 0⟩ (3 / 4) 1 = -(377 / 625) := by
  unfold net_force_capacity Stock.starting_force startingForceOfMass
  rw [sqrt_eval_pos34]
  norm_num

theorem C7_witness_feas :
    compute_split ⟨1, 5⟩ [⟨1, 0⟩] (3 / 4) 1 false = some (.split [1]) := by
  rw [compute_split_single, nfc_pow_w34, nfc_car_w34,
    if_pos (Or.inl (by norm_num)), fastsplit_single _ _ _ (by norm_num),
    if_pos (by norm_num)]

theorem C7_witness_hyps :
    (0 : ℝ) ≤ (⟨1, 5⟩ : Stock).tractive_effort ∧
    (∀ x ∈ ([⟨1, 0⟩] : Train), (0 : ℝ) ≤ x.tractive_effort) ∧
    (0 : ℝ) ≤ (⟨1, 5⟩ : Stock).mass ∧
    (∀ x ∈ ([⟨1, 0⟩] : Train), (0 : ℝ) ≤ x.mass) := by
  refine ⟨by norm_num, ?_, by norm_num, ?_⟩ <;>
  · intro x hx
    rw [List.mem_singleton] at hx
    subst hx
    norm_num

/-- C7, amended: with nonnegative tractive efforts and masses, if
compute_split yields a feasible split, then (a) increasing max_power keeps
it feasible, and (b) decreasing the grade within the band [0, 250] keeps it
feasible.  The original claim over the grade's magnitude is false outside
this band (see the counterexample). -/
theorem C7_amended (power : Stock) (cut : Train) (grade max_power : ℝ)
    (cn : Bool) (s : List ℕ)
    (hTEp : 0 ≤ power.tractive_effort)
    (hTEc : ∀ x ∈ cut, 0 ≤ x.tractive_effort)
    (hMp : 0 ≤ power.mass)
    (hMc : ∀ x ∈ cut, 0 ≤ x.mass)
    (hfeas : compute_split power cut grade max_power cn = some (.split s)) :
    (∀ mp2, max_power ≤ mp2 →
      ∃ s2, compute_split power cut grade mp2 cn = some (.split s2)) ∧
    (∀ g2, 0 ≤ g2 → g2 ≤ grade → grade ≤ 250 →
      ∃ s2, compute_split power cut g2 max_power cn = some (.split s2)) := by
  constructor
  · intro mp2 hmp
    unfold compute_split at hfeas ⊢
    exact dispatchSplit_mono _ _ _ _ cn s
      (net_force_capacity_mono_power power grade max_power mp2 hTEp hmp)
      (forall₂_map_le _ _ cut fun x hx =>
        net_force_capacity_mono_power x grade max_power mp2 (hTEc x hx) hmp)
      hfeas
  · intro g2 h0 h12 h250
    unfold compute_split at hfeas ⊢
    exact dispatchSplit_mono _ _ _ _ cn s
      (net_force_capacity_mono_grade power g2 grade max_power hMp h0 h12 h250)
      (forall₂_map_le _ _ cut fun x hx =>
        net_force_capacity_mono_grade x g2 grade max_power (hMc x hx) h0 h12 h250)
      hfeas

/-- Witness for C7_amended at power (1, 5), cut [(1, 0)], grade 3/4. -/
theorem C7_witness :
    (∀ mp2, (1 : ℝ) ≤ mp2 →
      ∃ s2, compute_split ⟨1, 5⟩ [⟨1, 0⟩] (3 / 4) mp2 false
        = some (.split s2)) ∧
    (∀ g2, (0 : ℝ) ≤ g2 → g2 ≤ 3 / 4 → (3 / 4 : ℝ) ≤ 250 →
      ∃ s2, compute_split ⟨1, 5⟩ [⟨1, 0⟩] g2 1 false = some (.split s2)) :=
  C7_amended ⟨1, 5⟩ [⟨1, 0⟩] (3 / 4) 1 false [1]
    C7_witness_hyps.1 C7_witness_hyps.2.1 C7_witness_hyps.2.2.1
    C7_witness_hyps.2.2.2 C7_witness_feas

end RailSplit
